import Mathlib

/-!
# Verification of the iavl mutable versioned tree

A shallow embedding of the core of the `iavl` repository: the mutable
versioned AVL-shaped Merkle tree (`mutable_tree.go`, given as
`src/unnamed/part_000`) and the node pool (`src/pool.go`).

The development has three layers:

* an *edit layer*: the working tree manipulated by `Set` / `Remove` /
  `Get`.  Working trees are fully materialized in memory (the spec's
  invariant: inner nodes have exactly two non-null children); persisted
  children are modelled as already resident, so the NodeDB reads performed
  by `clone` / `getRightNode` are identity operations here.
* a *persistence layer*: nodes with sum-typed (optional) in-memory child
  pointers, exactly mirroring the Go `Node` struct, used by
  `saveNewNodes`, `SaveVersion`, `Rollback`, `GetImmutable` and
  `GetVersioned`.  The NodeDB itself is not part of the provided sources;
  it is modelled from the spec as read oracles plus a write log.
* a *pool layer* for `pool.go`.

Byte slices are modelled as `List Nat`; `bytes.Compare` is lexicographic
comparison and `bytes.Equal` is list equality.  Machine-integer widths do
not matter for any claim proved here (heights are bounded by tree size,
versions are small), so `Int`/`Nat` are used directly.

Error handling: fallible Go functions are modelled with `Except String`
or with an explicit `Option String` error component.  Where Go mutates
state before raising an error that this model proves unreachable, the
model keeps the pre-call state.
-/

namespace Iavl

/-- Byte strings (Go `[]byte`). `bytes.Equal` treats nil and empty alike,
so a missing hash is modelled as `[]` where only equality matters. -/
abbrev Bytes := List Nat

/-- Go `bytes.Compare`: lexicographic comparison of byte slices. -/
def bytesCompare : Bytes → Bytes → Ordering
  | [], [] => .eq
  | [], _ :: _ => .lt
  | _ :: _, [] => .gt
  | a :: as, b :: bs =>
    if a < b then .lt
    else if b < a then .gt
    else bytesCompare as bs

/-- Stable identity of a persisted node: `(version, path)`; `path = 1` is
the root, left child `path <<, 1`, right child `(path << 1) | 1`
(`mutable_tree.go` uses a `big.Int` path, modelled as `Nat`). -/
structure NodeKey where
  version : Int
  path : Nat
deriving DecidableEq, Repr

/-- A fast-index record (`fastnode.Node`): `(key, value, version last updated)`. -/
structure FastNode where
  key : Bytes
  value : Bytes
  versionLastUpdatedAt : Int
deriving DecidableEq, Repr

/-- `fastNode.GetValue()`. -/
def FastNode.GetValue (fn : FastNode) : Bytes := fn.value

/-!
## Edit layer: fully materialized working trees

An in-memory AVL node.  The Go struct stores `subtreeHeight` and `size`
for every node and marks leaves by `subtreeHeight == 0`; here leaves and
inner nodes are split into constructors (spec: leaves have height 0 and
size 1 and no children, inner nodes have exactly two non-null children).
The persistent-identity (`nodeKey`), cached-hash and child-key fields of
the Go struct are carried along unchanged.
-/
inductive Node where
  | leaf (key value : Bytes) (hash : Option Bytes) (nodeKey : Option NodeKey)
  | inner (key : Bytes) (subtreeHeight size : Int) (hash : Option Bytes)
      (nodeKey leftNodeKey rightNodeKey : Option NodeKey)
      (leftNode rightNode : Node)
deriving DecidableEq, Repr

/-- `node.isLeaf()` (`subtreeHeight == 0`). -/
def Node.isLeaf : Node → Bool
  | .leaf .. => true
  | .inner .. => false

/-- The stored `subtreeHeight` field (0 for a leaf). -/
def Node.hgt : Node → Int
  | .leaf .. => 0
  | .inner _ h _ _ _ _ _ _ _ => h

/-- The stored `size` field (1 for a leaf). -/
def Node.ssize : Node → Int
  | .leaf .. => 1
  | .inner _ _ s _ _ _ _ _ _ => s

/-- The `nodeKey` field. -/
def Node.nodeKey : Node → Option NodeKey
  | .leaf _ _ _ nk => nk
  | .inner _ _ _ _ nk _ _ _ _ => nk

@[simp] theorem Node.hgt_leaf (k v : Bytes) (hsh : Option Bytes) (nk : Option NodeKey) :
    (Node.leaf k v hsh nk).hgt = 0 := rfl

@[simp] theorem Node.hgt_inner (k : Bytes) (h s : Int) (hsh : Option Bytes)
    (nk lnk rnk : Option NodeKey) (l r : Node) :
    (Node.inner k h s hsh nk lnk rnk l r).hgt = h := rfl

@[simp] theorem Node.ssize_leaf (k v : Bytes) (hsh : Option Bytes) (nk : Option NodeKey) :
    (Node.leaf k v hsh nk).ssize = 1 := rfl

@[simp] theorem Node.ssize_inner (k : Bytes) (h s : Int) (hsh : Option Bytes)
    (nk lnk rnk : Option NodeKey) (l r : Node) :
    (Node.inner k h s hsh nk lnk rnk l r).ssize = s := rfl

@[simp] theorem Node.nodeKey_leaf (k v : Bytes) (hsh : Option Bytes) (nk : Option NodeKey) :
    (Node.leaf k v hsh nk).nodeKey = nk := rfl

@[simp] theorem Node.nodeKey_inner (k : Bytes) (h s : Int) (hsh : Option Bytes)
    (nk lnk rnk : Option NodeKey) (l r : Node) :
    (Node.inner k h s hsh nk lnk rnk l r).nodeKey = nk := rfl

/-- `NewNode(key, value)`: a fresh transient leaf. -/
def NewNode (key value : Bytes) : Node := .leaf key value none none

/-- Modelled from the spec: `Node.clone` (node.go is not among the provided
sources).  Cloning a leaf is an error; cloning an inner node copies all
fields, clears the persistent identity and the cached hash ("any edit
clones it into a transient node whose NodeKey is cleared"), and keeps the
(already materialized) children. -/
def Node.clone : Node → Except String Node
  | .leaf .. => .error "attempt to copy a leaf node"
  | .inner k h s _ _ lnk rnk l r => .ok (.inner k h s none none lnk rnk l r)

/-- Modelled from the spec: `node.calcHeightAndSize` (node.go is not among
the provided sources): height is one more than the larger child height and
size is the sum of the child sizes. -/
def Node.calcHeightAndSize : Node → Except String Node
  | .leaf .. => .error "calcHeightAndSize called on a leaf"
  | .inner k _ _ hsh nk lnk rnk l r =>
    .ok (.inner k (1 + max l.hgt r.hgt) (l.ssize + r.ssize) hsh nk lnk rnk l r)

/-- Modelled from the spec: `node.calcBalance`: left height minus right
height (stored heights). -/
def Node.calcBalance : Node → Except String Int
  | .leaf .. => .error "calcBalance called on a leaf"
  | .inner _ _ _ _ _ _ _ l r => .ok (l.hgt - r.hgt)

/-- `MutableTree.rotateRight` (`mutable_tree.go`): clone the node and its
left child, repoint `node.leftNode` to the old left child's right subtree
and hang `node` as the new node's right child, then recompute height and
size of both rotated nodes (node first, as in the source). -/
def rotateRight (node : Node) : Except String Node :=
  match node.clone with
  | .error e => .error e
  | .ok n =>
    match n with
    | .leaf k v hsh nk => .ok (.leaf k v hsh nk)  -- unreachable: clone never yields a leaf
    | .inner k h s hsh nk lnk rnk l r =>
      match l.clone with
      | .error e => .error e
      | .ok nl =>
        match nl with
        | .leaf lk lv lhsh lnk2 => .ok (.leaf lk lv lhsh lnk2)  -- unreachable
        | .inner lk lh ls lhsh lnkey llnk lrnk ll lr =>
          match Node.calcHeightAndSize (.inner k h s hsh nk lnk rnk lr r) with
          | .error e => .error e
          | .ok node2 =>
            Node.calcHeightAndSize (.inner lk lh ls lhsh lnkey llnk lrnk ll node2)

/-- `MutableTree.rotateLeft` (`mutable_tree.go`): mirror image of
`rotateRight`. -/
def rotateLeft (node : Node) : Except String Node :=
  match node.clone with
  | .error e => .error e
  | .ok n =>
    match n with
    | .leaf k v hsh nk => .ok (.leaf k v hsh nk)  -- unreachable: clone never yields a leaf
    | .inner k h s hsh nk lnk rnk l r =>
      match r.clone with
      | .error e => .error e
      | .ok nr =>
        match nr with
        | .leaf rk rv rhsh rnk2 => .ok (.leaf rk rv rhsh rnk2)  -- unreachable
        | .inner rk rh rs rhsh rnkey rlnk rrnk rl rr =>
          match Node.calcHeightAndSize (.inner k h s hsh nk lnk rnk l rl) with
          | .error e => .error e
          | .ok node2 =>
            Node.calcHeightAndSize (.inner rk rh rs rhsh rnkey rlnk rrnk node2 rr)

/-- `MutableTree.balance` (`mutable_tree.go`): errors on a persisted node;
otherwise applies the four AVL rotation cases driven by the balance
factor.  In the Left-Right case the stale `leftNodeKey` is cleared before
the left child is left-rotated, in the Right-Left case the stale
`rightNodeKey` is cleared (as in the source). -/
def balance (node : Node) : Except String Node :=
  if node.nodeKey.isSome then .error "unexpected balance() call on persisted node"
  else
    match node.calcBalance with
    | .error e => .error e
    | .ok bal =>
      if bal > 1 then
        match node with
        | .leaf k v hsh nk => .ok (.leaf k v hsh nk)  -- unreachable: calcBalance errors on leaves
        | .inner k h s hsh nk lnk rnk l r =>
          match l.calcBalance with
          | .error e => .error e
          | .ok lftBalance =>
            if lftBalance ≥ 0 then
              -- Left Left Case
              rotateRight (.inner k h s hsh nk lnk rnk l r)
            else
              -- Left Right Case
              match rotateLeft l with
              | .error e => .error e
              | .ok newLeft => rotateRight (.inner k h s hsh nk none rnk newLeft r)
      else if bal < -1 then
        match node with
        | .leaf k v hsh nk => .ok (.leaf k v hsh nk)  -- unreachable
        | .inner k h s hsh nk lnk rnk l r =>
          match r.calcBalance with
          | .error e => .error e
          | .ok rightBalance =>
            if rightBalance ≤ 0 then
              -- Right Right Case
              rotateLeft (.inner k h s hsh nk lnk rnk l r)
            else
              -- Right Left Case
              match rotateRight r with
              | .error e => .error e
              | .ok newRight => rotateLeft (.inner k h s hsh nk lnk none l newRight)
      else
        -- Nothing changed
        .ok node

/-- Working-tree state of a `MutableTree` as seen by the edit path: the
(possibly null) working root, the version of the last saved snapshot, the
fast-storage flag, the orphan list and the two unsaved fast-index maps
(modelled as association lists; insertion replaces any previous binding,
as Go map assignment does). -/
structure MTree where
  root : Option Node
  version : Int
  skipFastStorageUpgrade : Bool
  orphans : List NodeKey
  unsavedFastNodeAdditions : List (Bytes × FastNode)
  unsavedFastNodeRemovals : List Bytes
deriving DecidableEq, Repr

/-- `addUnsavedAddition`: delete the key from the removal map, then bind it
in the addition map. -/
def MTree.addUnsavedAddition (t : MTree) (key : Bytes) (node : FastNode) : MTree :=
  { t with
    unsavedFastNodeRemovals := t.unsavedFastNodeRemovals.filter (fun x => x ≠ key)
    unsavedFastNodeAdditions :=
      (key, node) :: t.unsavedFastNodeAdditions.filter (fun p => p.1 ≠ key) }

/-- `addUnsavedRemoval`: delete the key from the addition map, then record
it in the removal map. -/
def MTree.addUnsavedRemoval (t : MTree) (key : Bytes) : MTree :=
  { t with
    unsavedFastNodeAdditions := t.unsavedFastNodeAdditions.filter (fun p => p.1 ≠ key)
    unsavedFastNodeRemovals := key :: t.unsavedFastNodeRemovals.filter (fun x => x ≠ key) }

/-- `MutableTree.recursiveSet` (`mutable_tree.go`).  The `node.clone` call
of the source is applied inline in the inner case (an inner node's clone
never fails and equals the node with `nodeKey` and `hash` cleared), so the
recursion is structural. -/
def MTree.recursiveSet (t : MTree) (node : Node) (key value : Bytes) :
    Except String (Node × Bool × MTree) :=
  let version := t.version + 1
  match node with
  | .leaf nkey nvalue nhash nnodeKey =>
    let t := if !t.skipFastStorageUpgrade
      then t.addUnsavedAddition key (FastNode.mk key value version) else t
    match bytesCompare key nkey with
    | .lt =>
      .ok (.inner nkey 1 2 none none none none
             (NewNode key value) (.leaf nkey nvalue nhash nnodeKey), false, t)
    | .gt =>
      .ok (.inner key 1 2 none none none none
             (.leaf nkey nvalue nhash nnodeKey) (NewNode key value), false, t)
    | .eq =>
      let t := match nnodeKey with
        | some nk => { t with orphans := t.orphans ++ [nk] }
        | none => t
      .ok (NewNode key value, true, t)
  | .inner k h s _ _ lnk rnk l r =>
    -- node, err = node.clone(tree): nodeKey and hash cleared
    if bytesCompare key k = .lt then
      match t.recursiveSet l key value with
      | .error e => .error e
      | .ok (newLeft, updated, t) =>
        if updated then
          .ok (.inner k h s none none lnk rnk newLeft r, updated, t)
        else
          match Node.calcHeightAndSize (.inner k h s none none lnk rnk newLeft r) with
          | .error e => .error e
          | .ok node2 =>
            match balance node2 with
            | .error e => .error e
            | .ok newNode => .ok (newNode, updated, t)
    else
      match t.recursiveSet r key value with
      | .error e => .error e
      | .ok (newRight, updated, t) =>
        if updated then
          .ok (.inner k h s none none lnk rnk l newRight, updated, t)
        else
          match Node.calcHeightAndSize (.inner k h s none none lnk rnk l newRight) with
          | .error e => .error e
          | .ok node2 =>
            match balance node2 with
            | .error e => .error e
            | .ok newNode => .ok (newNode, updated, t)

/-- `MutableTree.set` (`mutable_tree.go`): a nil value is an error (the
tree is untouched in that case); an empty tree gets a fresh leaf root;
otherwise descend with `recursiveSet` and install the returned root.
Result: `(updated, error, new state)`.  On an (unreachable, see
`recursiveSet_spec`) internal error the source's multiple assignment sets
the root to nil. -/
def MTree.set (t : MTree) (key : Bytes) (value : Option Bytes) :
    Bool × Option String × MTree :=
  match value with
  | none => (false, some "attempt to store nil value at key", t)
  | some v =>
    match t.root with
    | none =>
      let t := if !t.skipFastStorageUpgrade
        then t.addUnsavedAddition key (FastNode.mk key v (t.version + 1)) else t
      (false, none, { t with root := some (NewNode key v) })
    | some root =>
      match t.recursiveSet root key v with
      | .error e => (false, some e, { t with root := none })
      | .ok (newRoot, updated, t') => (updated, none, { t' with root := some newRoot })

/-- `MutableTree.Set` (`mutable_tree.go`): wraps `set`, reporting
`updated = false` on error. -/
def MTree.Set (t : MTree) (key : Bytes) (value : Option Bytes) :
    Bool × Option String × MTree :=
  match t.set key value with
  | (_, some e, t') => (false, some e, t')
  | (updated, none, t') => (updated, none, t')

/-- `MutableTree.recursiveRemove` (`mutable_tree.go`).  Returns
`(new subtree root, new leftmost key if changed, removed value, state)`.
As in `recursiveSet`, the source's `node.clone` is applied inline in the
inner case. -/
def MTree.recursiveRemove (t : MTree) (node : Node) (key : Bytes) :
    Except String (Option Node × Option Bytes × Option Bytes × MTree) :=
  match node with
  | .leaf nkey nvalue nhash nnodeKey =>
    if key = nkey then
      let t := match nnodeKey with
        | some nk => { t with orphans := t.orphans ++ [nk] }
        | none => t
      .ok (none, none, some nvalue, t)
    else
      .ok (some (.leaf nkey nvalue nhash nnodeKey), none, none, t)
  | .inner k h s _ _ lnk rnk l r =>
    -- node, err = node.clone(tree): nodeKey and hash cleared
    if bytesCompare key k = .lt then
      -- node.key < key; we go to the left to find the key
      match t.recursiveRemove l key with
      | .error e => .error e
      | .ok (newLeftNode, newKey, value, t) =>
        match value with
        | none => .ok (some (.inner k h s none none lnk rnk l r), none, none, t)
        | some v =>
          match newLeftNode with
          | none =>
            -- left node held value, was removed
            .ok (some r, some k, some v, t)
          | some nl =>
            match Node.calcHeightAndSize (.inner k h s none none lnk rnk nl r) with
            | .error e => .error e
            | .ok node2 =>
              match balance node2 with
              | .error e => .error e
              | .ok m => .ok (some m, newKey, some v, t)
    else
      -- node.key >= key; either found or look to the right
      match t.recursiveRemove r key with
      | .error e => .error e
      | .ok (newRightNode, newKey, value, t) =>
        match value with
        | none => .ok (some (.inner k h s none none lnk rnk l r), none, none, t)
        | some v =>
          match newRightNode with
          | none =>
            -- right node held value, was removed
            .ok (some l, none, some v, t)
          | some nr =>
            let k2 := match newKey with
              | some nk2 => nk2
              | none => k
            match Node.calcHeightAndSize (.inner k2 h s none none lnk rnk l nr) with
            | .error e => .error e
            | .ok node2 =>
              match balance node2 with
              | .error e => .error e
              | .ok m => .ok (some m, none, some v, t)

/-- `MutableTree.Remove` (`mutable_tree.go`).  Result:
`(removed value, removed?, error, new state)`.  When the key is not found
the root pointer is left unchanged; on success the fast-index removal is
recorded (unless fast storage is skipped) and the new root installed. -/
def MTree.Remove (t : MTree) (key : Bytes) :
    Option Bytes × Bool × Option String × MTree :=
  match t.root with
  | none => (none, false, none, t)
  | some root =>
    match t.recursiveRemove root key with
    | .error e => (none, false, some e, t)
    | .ok (newRoot, _, value, t') =>
      match value with
      | none => (none, false, none, t')
      | some v =>
        let t' := if !t'.skipFastStorageUpgrade then t'.addUnsavedRemoval key else t'
        (some v, true, none, { t' with root := newRoot })

/-- Modelled from the spec: `ImmutableTree.Get` (immutable_tree.go is not
among the provided sources): plain binary-search-tree traversal of the
working root, descending left when the key is smaller than the routing
key. -/
def itreeGet : Node → Bytes → Option Bytes
  | .leaf nkey nvalue _ _, key => if key = nkey then some nvalue else none
  | .inner k _ _ _ _ _ _ l r, key =>
    if bytesCompare key k = .lt then itreeGet l key else itreeGet r key

/-- `MutableTree.Get` (`mutable_tree.go`): null root gives null; otherwise
the unsaved fast-index additions answer first, then the unsaved removals
(as null), and only then the tree traversal. -/
def MTree.Get (t : MTree) (key : Bytes) : Option Bytes :=
  match t.root with
  | none => none
  | some root =>
    if !t.skipFastStorageUpgrade then
      match t.unsavedFastNodeAdditions.lookup key with
      | some fastNode => some fastNode.GetValue
      | none =>
        if t.unsavedFastNodeRemovals.contains key then none
        else itreeGet root key
    else itreeGet root key

/-!
## The AVL invariant and its preservation by `Set` / `Remove`
-/

/-- The stored `subtreeHeight` fields satisfy the height recurrence at every
node of the subtree. -/
def heightsOkB : Node → Bool
  | .leaf .. => true
  | .inner _ h _ _ _ _ _ l r =>
    decide (h = 1 + max l.hgt r.hgt) && heightsOkB l && heightsOkB r

/-- The AVL balance condition, on stored heights, at every inner node of
the subtree. -/
def balancedB : Node → Bool
  | .leaf .. => true
  | .inner _ _ _ _ _ _ _ l r =>
    decide (l.hgt - r.hgt ≤ 1) && decide (r.hgt - l.hgt ≤ 1) &&
      balancedB l && balancedB r

/-- The true (recomputed) height of a subtree, independent of the stored
fields. -/
def realHeight : Node → Int
  | .leaf .. => 0
  | .inner _ _ _ _ _ _ _ l r => 1 + max (realHeight l) (realHeight r)

/-- `|height(left) − height(right)| ≤ 1` at every inner node, with `height`
the true recomputed height: the AVL invariant exactly as the spec states
it. -/
def realBalancedB : Node → Bool
  | .leaf .. => true
  | .inner _ _ _ _ _ _ _ l r =>
    decide (realHeight l - realHeight r ≤ 1) &&
      decide (realHeight r - realHeight l ≤ 1) &&
      realBalancedB l && realBalancedB r

/-- Well-formed working subtree: correct stored heights and AVL balanced. -/
def avlB (n : Node) : Bool := heightsOkB n && balancedB n

/-- `avlB` lifted to an optional (possibly null) root. -/
def avlOptB : Option Node → Bool
  | none => true
  | some n => avlB n

/-- `realBalancedB` lifted to an optional root. -/
def realBalancedOptB : Option Node → Bool
  | none => true
  | some n => realBalancedB n

theorem hgt_nonneg : ∀ n : Node, heightsOkB n = true → 0 ≤ n.hgt := by
  intro n
  induction n with
  | leaf k v hsh nk => intro _; simp [Node.hgt]
  | inner k h s hsh nk lnk rnk l r ihl ihr =>
    intro hok
    simp only [heightsOkB, Bool.and_eq_true, decide_eq_true_eq] at hok
    obtain ⟨⟨hh, hl⟩, hr⟩ := hok
    have h1 := ihl hl
    have h2 := ihr hr
    simp only [Node.hgt]
    omega

theorem hgt_eq_realHeight : ∀ n : Node, heightsOkB n = true → n.hgt = realHeight n := by
  intro n
  induction n with
  | leaf k v hsh nk => intro _; simp [Node.hgt, realHeight]
  | inner k h s hsh nk lnk rnk l r ihl ihr =>
    intro hok
    simp only [heightsOkB, Bool.and_eq_true, decide_eq_true_eq] at hok
    obtain ⟨⟨hh, hl⟩, hr⟩ := hok
    show h = _
    rw [hh, ihl hl, ihr hr, realHeight]

theorem balancedB_real : ∀ n : Node, heightsOkB n = true → balancedB n = true →
    realBalancedB n = true := by
  intro n
  induction n with
  | leaf k v hsh nk => intro _ _; rfl
  | inner k h s hsh nk lnk rnk l r ihl ihr =>
    intro hok hbal
    simp only [heightsOkB, Bool.and_eq_true, decide_eq_true_eq] at hok
    obtain ⟨⟨hh, hl⟩, hr⟩ := hok
    simp only [balancedB, Bool.and_eq_true, decide_eq_true_eq] at hbal
    obtain ⟨⟨⟨hb1, hb2⟩, hbl⟩, hbr⟩ := hbal
    simp only [realBalancedB, Bool.and_eq_true, decide_eq_true_eq]
    rw [← hgt_eq_realHeight l hl, ← hgt_eq_realHeight r hr]
    exact ⟨⟨⟨hb1, hb2⟩, ihl hl hbl⟩, ihr hr hbr⟩

/-- Computation law for `rotateRight` on a node whose left child is inner. -/
theorem rotateRight_eq (k : Bytes) (h s : Int) (hsh : Option Bytes)
    (nk lnk rnk : Option NodeKey) (lk : Bytes) (lh ls : Int) (lhsh : Option Bytes)
    (lnkey llnk lrnk : Option NodeKey) (ll lr r : Node) :
    rotateRight (.inner k h s hsh nk lnk rnk
        (.inner lk lh ls lhsh lnkey llnk lrnk ll lr) r)
    = .ok (.inner lk (1 + max ll.hgt (1 + max lr.hgt r.hgt))
        (ll.ssize + (lr.ssize + r.ssize)) none none llnk lrnk ll
        (.inner k (1 + max lr.hgt r.hgt) (lr.ssize + r.ssize) none none lnk rnk lr r)) :=
  rfl

/-- Computation law for `rotateLeft` on a node whose right child is inner. -/
theorem rotateLeft_eq (k : Bytes) (h s : Int) (hsh : Option Bytes)
    (nk lnk rnk : Option NodeKey) (rk : Bytes) (rh rs : Int) (rhsh : Option Bytes)
    (rnkey rlnk rrnk : Option NodeKey) (l rl rr : Node) :
    rotateLeft (.inner k h s hsh nk lnk rnk l
        (.inner rk rh rs rhsh rnkey rlnk rrnk rl rr))
    = .ok (.inner rk (1 + max (1 + max l.hgt rl.hgt) rr.hgt)
        ((l.ssize + rl.ssize) + rr.ssize) none none rlnk rrnk
        (.inner k (1 + max l.hgt rl.hgt) (l.ssize + rl.ssize) none none lnk rnk l rl) rr) :=
  rfl

/-- The rebalancing contract of `balance`: on a transient node with
well-formed, balanced children whose stored height difference is at most 2,
`balance` succeeds, returns a well-formed balanced tree whose height is `h`
or `h - 1`, and does nothing when the node was already balanced. -/
theorem balance_spec (k : Bytes) (h s : Int) (lnk rnk : Option NodeKey) (l r : Node)
    (hwl : heightsOkB l = true) (hwr : heightsOkB r = true)
    (hbl : balancedB l = true) (hbr : balancedB r = true)
    (hh : h = 1 + max l.hgt r.hgt)
    (hd1 : l.hgt - r.hgt ≤ 2) (hd2 : r.hgt - l.hgt ≤ 2) :
    ∃ m, balance (.inner k h s none none lnk rnk l r) = .ok m ∧
      heightsOkB m = true ∧ balancedB m = true ∧
      (m.hgt = h ∨ m.hgt = h - 1) ∧
      (l.hgt - r.hgt ≤ 1 → r.hgt - l.hgt ≤ 1 → m = .inner k h s none none lnk rnk l r) := by
  have hl0 := hgt_nonneg l hwl
  have hr0 := hgt_nonneg r hwr
  by_cases hc1 : l.hgt - r.hgt > 1
  · -- left heavy, so l.hgt = r.hgt + 2 and l is inner
    cases l with
    | leaf a b c d =>
      exfalso
      have e0 : Node.hgt (.leaf a b c d) = 0 := rfl
      rw [e0] at hc1
      omega
    | inner lk lh ls lhsh lnkey llnk lrnk ll lr =>
      have eL : Node.hgt (.inner lk lh ls lhsh lnkey llnk lrnk ll lr) = lh := rfl
      rw [eL] at hh hd1 hd2 hc1 hl0
      simp only [heightsOkB, Bool.and_eq_true, decide_eq_true_eq] at hwl
      obtain ⟨⟨hlh, hwll⟩, hwlr⟩ := hwl
      simp only [balancedB, Bool.and_eq_true, decide_eq_true_eq] at hbl
      obtain ⟨⟨⟨hq1, hq2⟩, hbll⟩, hblr⟩ := hbl
      have hll0 := hgt_nonneg ll hwll
      have hlr0 := hgt_nonneg lr hwlr
      by_cases hc2 : ll.hgt - lr.hgt ≥ 0
      · -- Left Left Case: a single right rotation
        refine ⟨Node.inner lk (1 + max ll.hgt (1 + max lr.hgt r.hgt))
            (ll.ssize + (lr.ssize + r.ssize)) none none llnk lrnk ll
            (Node.inner k (1 + max lr.hgt r.hgt) (lr.ssize + r.ssize) none none lnk rnk lr r),
          ?_, ?_, ?_, ?_, ?_⟩
        · unfold balance
          simp only [Node.nodeKey_inner, Option.isSome_none, Bool.false_eq_true, if_false,
            Node.calcBalance, Node.hgt_inner]
          rw [if_pos (by omega : lh - r.hgt > 1), if_pos hc2]
          exact rotateRight_eq k h s none none lnk rnk lk lh ls lhsh lnkey llnk lrnk ll lr r
        · simp [heightsOkB, hwll, hwlr, hwr]
        · simp only [balancedB, Node.hgt_inner, Node.hgt_leaf, Bool.and_eq_true, decide_eq_true_eq, hbll, hblr, hbr,
            and_true]
          omega
        · simp only [Node.hgt_inner]
          omega
        · intro hx1 hx2
          omega
      · -- Left Right Case: rotate the left child left, then rotate right
        -- lr must be inner
        cases lr with
        | leaf a2 b2 c2 d2 =>
          exfalso
          have e0 : Node.hgt (.leaf a2 b2 c2 d2) = 0 := rfl
          rw [e0] at hc2 hlr0 hq1 hq2 hlh
          omega
        | inner mk mh ms mhsh mnkey mlnk mrnk ml mr =>
          have eM : Node.hgt (.inner mk mh ms mhsh mnkey mlnk mrnk ml mr) = mh := rfl
          rw [eM] at hc2 hlr0 hq1 hq2 hlh
          simp only [heightsOkB, Bool.and_eq_true, decide_eq_true_eq] at hwlr
          obtain ⟨⟨hmh, hwml⟩, hwmr⟩ := hwlr
          simp only [balancedB, Bool.and_eq_true, decide_eq_true_eq] at hblr
          obtain ⟨⟨⟨hm1, hm2⟩, hbml⟩, hbmr⟩ := hblr
          have hml0 := hgt_nonneg ml hwml
          have hmr0 := hgt_nonneg mr hwmr
          refine ⟨Node.inner mk
              (1 + max (1 + max ll.hgt ml.hgt) (1 + max mr.hgt r.hgt))
              ((ll.ssize + ml.ssize) + (mr.ssize + r.ssize)) none none mlnk mrnk
              (Node.inner lk (1 + max ll.hgt ml.hgt) (ll.ssize + ml.ssize)
                none none llnk lrnk ll ml)
              (Node.inner k (1 + max mr.hgt r.hgt) (mr.ssize + r.ssize)
                none none none rnk mr r),
            ?_, ?_, ?_, ?_, ?_⟩
          · unfold balance
            simp only [Node.nodeKey_inner, Option.isSome_none, Bool.false_eq_true, if_false,
              Node.calcBalance, Node.hgt_inner]
            rw [if_pos (by omega : lh - r.hgt > 1), if_neg (by omega : ¬ ll.hgt - mh ≥ 0)]
            simp only [rotateLeft_eq, rotateRight_eq, Node.hgt_inner, Node.ssize_inner]
          · simp [heightsOkB, hwll, hwml, hwmr, hwr]
          · simp only [balancedB, Node.hgt_inner, Node.hgt_leaf, Bool.and_eq_true, decide_eq_true_eq, hbll, hbml,
              hbmr, hbr, and_true]
            omega
          · simp only [Node.hgt_inner]
            omega
          · intro hx1 hx2
            omega
  · by_cases hc3 : l.hgt - r.hgt < -1
    · -- right heavy, so r.hgt = l.hgt + 2 and r is inner
      cases r with
      | leaf a b c d =>
        exfalso
        have e0 : Node.hgt (.leaf a b c d) = 0 := rfl
        rw [e0] at hc3
        omega
      | inner rk rh rs rhsh rnkey rlnk rrnk rl rr =>
        have eR : Node.hgt (.inner rk rh rs rhsh rnkey rlnk rrnk rl rr) = rh := rfl
        rw [eR] at hh hd1 hd2 hc1 hc3 hr0
        simp only [heightsOkB, Bool.and_eq_true, decide_eq_true_eq] at hwr
        obtain ⟨⟨hrh, hwrl⟩, hwrr⟩ := hwr
        simp only [balancedB, Bool.and_eq_true, decide_eq_true_eq] at hbr
        obtain ⟨⟨⟨hq1, hq2⟩, hbrl⟩, hbrr⟩ := hbr
        have hrl0 := hgt_nonneg rl hwrl
        have hrr0 := hgt_nonneg rr hwrr
        by_cases hc4 : rl.hgt - rr.hgt ≤ 0
        · -- Right Right Case: a single left rotation
          refine ⟨Node.inner rk (1 + max (1 + max l.hgt rl.hgt) rr.hgt)
              ((l.ssize + rl.ssize) + rr.ssize) none none rlnk rrnk
              (Node.inner k (1 + max l.hgt rl.hgt) (l.ssize + rl.ssize)
                none none lnk rnk l rl) rr,
            ?_, ?_, ?_, ?_, ?_⟩
          · unfold balance
            simp only [Node.nodeKey_inner, Option.isSome_none, Bool.false_eq_true, if_false,
              Node.calcBalance, Node.hgt_inner]
            rw [if_neg (by omega : ¬ l.hgt - rh > 1), if_pos (by omega : l.hgt - rh < -1),
              if_pos hc4]
            exact rotateLeft_eq k h s none none lnk rnk rk rh rs rhsh rnkey rlnk rrnk l rl rr
          · simp [heightsOkB, hwl, hwrl, hwrr]
          · simp only [balancedB, Node.hgt_inner, Node.hgt_leaf, Bool.and_eq_true, decide_eq_true_eq, hbl, hbrl,
              hbrr, and_true]
            omega
          · simp only [Node.hgt_inner]
            omega
          · intro hx1 hx2
            omega
        · -- Right Left Case: rotate the right child right, then rotate left
          cases rl with
          | leaf a2 b2 c2 d2 =>
            exfalso
            have e0 : Node.hgt (.leaf a2 b2 c2 d2) = 0 := rfl
            rw [e0] at hc4 hrl0 hq1 hq2 hrh
            omega
          | inner mk mh ms mhsh mnkey mlnk mrnk ml mr =>
            have eM : Node.hgt (.inner mk mh ms mhsh mnkey mlnk mrnk ml mr) = mh := rfl
            rw [eM] at hc4 hrl0 hq1 hq2 hrh
            simp only [heightsOkB, Bool.and_eq_true, decide_eq_true_eq] at hwrl
            obtain ⟨⟨hmh, hwml⟩, hwmr⟩ := hwrl
            simp only [balancedB, Bool.and_eq_true, decide_eq_true_eq] at hbrl
            obtain ⟨⟨⟨hm1, hm2⟩, hbml⟩, hbmr⟩ := hbrl
            have hml0 := hgt_nonneg ml hwml
            have hmr0 := hgt_nonneg mr hwmr
            refine ⟨Node.inner mk
                (1 + max (1 + max l.hgt ml.hgt) (1 + max mr.hgt rr.hgt))
                ((l.ssize + ml.ssize) + (mr.ssize + rr.ssize)) none none mlnk mrnk
                (Node.inner k (1 + max l.hgt ml.hgt) (l.ssize + ml.ssize)
                  none none lnk none l ml)
                (Node.inner rk (1 + max mr.hgt rr.hgt) (mr.ssize + rr.ssize)
                  none none rlnk rrnk mr rr),
              ?_, ?_, ?_, ?_, ?_⟩
            · unfold balance
              simp only [Node.nodeKey_inner, Option.isSome_none, Bool.false_eq_true, if_false,
                Node.calcBalance, Node.hgt_inner]
              rw [if_neg (by omega : ¬ l.hgt - rh > 1), if_pos (by omega : l.hgt - rh < -1),
                if_neg (by omega : ¬ mh - rr.hgt ≤ 0)]
              simp only [rotateRight_eq, rotateLeft_eq, Node.hgt_inner, Node.ssize_inner]
            · simp [heightsOkB, hwl, hwml, hwmr, hwrr]
            · simp only [balancedB, Node.hgt_inner, Node.hgt_leaf, Bool.and_eq_true, decide_eq_true_eq, hbl, hbml,
                hbmr, hbrr, and_true]
              omega
            · simp only [Node.hgt_inner]
              omega
            · intro hx1 hx2
              omega
    · -- already balanced: nothing changed
      refine ⟨.inner k h s none none lnk rnk l r, ?_, ?_, ?_, ?_, ?_⟩
      · unfold balance
        simp only [Node.nodeKey_inner, Option.isSome_none, Bool.false_eq_true, if_false,
          Node.calcBalance]
        rw [if_neg hc1, if_neg hc3]
      · simp only [heightsOkB, Bool.and_eq_true, decide_eq_true_eq]
        exact ⟨⟨hh, hwl⟩, hwr⟩
      · simp only [balancedB, Bool.and_eq_true, decide_eq_true_eq, hbl, hbr, and_true]
        omega
      · exact Or.inl rfl
      · intro hx1 hx2
        rfl

/-- `recursiveSet` on a well-formed balanced subtree succeeds, preserves
well-formedness and balance, grows the stored height by at most one, and
leaves it unchanged when an existing key was updated. -/
theorem recursiveSet_spec (node : Node) (t : MTree) (key value : Bytes)
    (hw : heightsOkB node = true) (hb : balancedB node = true) :
    ∃ n' u t', t.recursiveSet node key value = .ok (n', u, t') ∧
      heightsOkB n' = true ∧ balancedB n' = true ∧
      node.hgt ≤ n'.hgt ∧ n'.hgt ≤ node.hgt + 1 ∧
      (u = true → n'.hgt = node.hgt) := by
  induction node generalizing t with
  | leaf a b c d =>
    rcases hcmp : bytesCompare key a with _ | _ | _
    · refine ⟨.inner a 1 2 none none none none (NewNode key value) (.leaf a b c d), false,
        if !t.skipFastStorageUpgrade
          then t.addUnsavedAddition key (FastNode.mk key value (t.version + 1)) else t,
        ?_, ?_, ?_, ?_, ?_, ?_⟩
      · simp only [MTree.recursiveSet, hcmp]
      · simp [heightsOkB, NewNode]
      · simp [balancedB, NewNode]
      · simp only [Node.hgt_leaf, Node.hgt_inner]; omega
      · simp only [Node.hgt_leaf, Node.hgt_inner]; omega
      · intro hx; exact (Bool.false_ne_true hx).elim
    · rcases d with _ | nk0
      · refine ⟨NewNode key value, true,
          if !t.skipFastStorageUpgrade
            then t.addUnsavedAddition key (FastNode.mk key value (t.version + 1)) else t,
          ?_, ?_, ?_, ?_, ?_, ?_⟩
        · simp only [MTree.recursiveSet, hcmp]
        · simp [heightsOkB, NewNode]
        · simp [balancedB, NewNode]
        · simp only [NewNode, Node.hgt_leaf]; omega
        · simp only [NewNode, Node.hgt_leaf]; omega
        · intro _; simp [NewNode]
      · refine ⟨NewNode key value, true,
          { (if !t.skipFastStorageUpgrade
              then t.addUnsavedAddition key (FastNode.mk key value (t.version + 1)) else t) with
            orphans := (if !t.skipFastStorageUpgrade
              then t.addUnsavedAddition key (FastNode.mk key value (t.version + 1))
              else t).orphans ++ [nk0] },
          ?_, ?_, ?_, ?_, ?_, ?_⟩
        · simp only [MTree.recursiveSet, hcmp]
        · simp [heightsOkB, NewNode]
        · simp [balancedB, NewNode]
        · simp only [NewNode, Node.hgt_leaf]; omega
        · simp only [NewNode, Node.hgt_leaf]; omega
        · intro _; simp [NewNode]
    · refine ⟨.inner key 1 2 none none none none (.leaf a b c d) (NewNode key value), false,
        if !t.skipFastStorageUpgrade
          then t.addUnsavedAddition key (FastNode.mk key value (t.version + 1)) else t,
        ?_, ?_, ?_, ?_, ?_, ?_⟩
      · simp only [MTree.recursiveSet, hcmp]
      · simp [heightsOkB, NewNode]
      · simp [balancedB, NewNode]
      · simp only [Node.hgt_leaf, Node.hgt_inner]; omega
      · simp only [Node.hgt_leaf, Node.hgt_inner]; omega
      · intro hx; exact (Bool.false_ne_true hx).elim
  | inner k h s hsh nk lnk rnk l r ihl ihr =>
    simp only [heightsOkB, Bool.and_eq_true, decide_eq_true_eq] at hw
    obtain ⟨⟨hhf, hwl⟩, hwr⟩ := hw
    simp only [balancedB, Bool.and_eq_true, decide_eq_true_eq] at hb
    obtain ⟨⟨⟨hq1, hq2⟩, hbl⟩, hbr⟩ := hb
    have hl0 := hgt_nonneg l hwl
    have hr0 := hgt_nonneg r hwr
    by_cases hcmp : bytesCompare key k = .lt
    · obtain ⟨n1, u1, t1, heq, hw1, hbn1, hg1, hg2, hu⟩ := ihl t hwl hbl
      cases u1 with
      | true =>
        have hn1 : n1.hgt = l.hgt := hu rfl
        refine ⟨.inner k h s none none lnk rnk n1 r, true, t1, ?_, ?_, ?_, ?_, ?_, ?_⟩
        · simp only [MTree.recursiveSet, if_pos hcmp, heq, if_true]
        · simp only [heightsOkB, Bool.and_eq_true, decide_eq_true_eq, Node.hgt_inner]
          exact ⟨⟨by rw [hn1]; exact hhf, hw1⟩, hwr⟩
        · simp only [balancedB, Bool.and_eq_true, decide_eq_true_eq, Node.hgt_inner,
            hbn1, hbr, and_true]
          omega
        · simp only [Node.hgt_inner]; omega
        · simp only [Node.hgt_inner]; omega
        · intro _; simp only [Node.hgt_inner]
      | false =>
        obtain ⟨m, hmeq, hmw, hmb, hmhgt, hmid⟩ :=
          balance_spec k (1 + max n1.hgt r.hgt) (n1.ssize + r.ssize) lnk rnk n1 r
            hw1 hwr hbn1 hbr rfl (by omega) (by omega)
        refine ⟨m, false, t1, ?_, hmw, hmb, ?_, ?_, ?_⟩
        · simp only [MTree.recursiveSet, if_pos hcmp, heq, Bool.false_eq_true, if_false,
            Node.calcHeightAndSize, hmeq]
        · by_cases hflat : n1.hgt - r.hgt ≤ 1 ∧ r.hgt - n1.hgt ≤ 1
          · have hm := hmid hflat.1 hflat.2
            have hmh : m.hgt = 1 + max n1.hgt r.hgt := by rw [hm]; rfl
            simp only [Node.hgt_inner]
            omega
          · rcases hmhgt with hmh | hmh <;> (simp only [Node.hgt_inner]; omega)
        · by_cases hflat : n1.hgt - r.hgt ≤ 1 ∧ r.hgt - n1.hgt ≤ 1
          · have hm := hmid hflat.1 hflat.2
            have hmh : m.hgt = 1 + max n1.hgt r.hgt := by rw [hm]; rfl
            simp only [Node.hgt_inner]
            omega
          · rcases hmhgt with hmh | hmh <;> (simp only [Node.hgt_inner]; omega)
        · intro hx; exact (Bool.false_ne_true hx).elim
    · obtain ⟨n1, u1, t1, heq, hw1, hbn1, hg1, hg2, hu⟩ := ihr t hwr hbr
      cases u1 with
      | true =>
        have hn1 : n1.hgt = r.hgt := hu rfl
        refine ⟨.inner k h s none none lnk rnk l n1, true, t1, ?_, ?_, ?_, ?_, ?_, ?_⟩
        · simp only [MTree.recursiveSet, if_neg hcmp, heq, if_true]
        · simp only [heightsOkB, Bool.and_eq_true, decide_eq_true_eq, Node.hgt_inner]
          exact ⟨⟨by rw [hn1]; exact hhf, hwl⟩, hw1⟩
        · simp only [balancedB, Bool.and_eq_true, decide_eq_true_eq, Node.hgt_inner,
            hbl, hbn1, and_true]
          omega
        · simp only [Node.hgt_inner]; omega
        · simp only [Node.hgt_inner]; omega
        · intro _; simp only [Node.hgt_inner]
      | false =>
        obtain ⟨m, hmeq, hmw, hmb, hmhgt, hmid⟩ :=
          balance_spec k (1 + max l.hgt n1.hgt) (l.ssize + n1.ssize) lnk rnk l n1
            hwl hw1 hbl hbn1 rfl (by omega) (by omega)
        refine ⟨m, false, t1, ?_, hmw, hmb, ?_, ?_, ?_⟩
        · simp only [MTree.recursiveSet, if_neg hcmp, heq, Bool.false_eq_true, if_false,
            Node.calcHeightAndSize, hmeq]
        · by_cases hflat : l.hgt - n1.hgt ≤ 1 ∧ n1.hgt - l.hgt ≤ 1
          · have hm := hmid hflat.1 hflat.2
            have hmh : m.hgt = 1 + max l.hgt n1.hgt := by rw [hm]; rfl
            simp only [Node.hgt_inner]
            omega
          · rcases hmhgt with hmh | hmh <;> (simp only [Node.hgt_inner]; omega)
        · by_cases hflat : l.hgt - n1.hgt ≤ 1 ∧ n1.hgt - l.hgt ≤ 1
          · have hm := hmid hflat.1 hflat.2
            have hmh : m.hgt = 1 + max l.hgt n1.hgt := by rw [hm]; rfl
            simp only [Node.hgt_inner]
            omega
          · rcases hmhgt with hmh | hmh <;> (simp only [Node.hgt_inner]; omega)
        · intro hx; exact (Bool.false_ne_true hx).elim

/-- `recursiveRemove` on a well-formed balanced subtree succeeds, leaves the
working root pointer in the threaded state untouched, preserves
well-formedness and balance of any returned subtree, shrinks the stored
height by at most one (a `none` result means the subtree was a single
leaf), and returns the subtree with unchanged height when the key was not
found. -/
theorem recursiveRemove_spec (node : Node) (t : MTree) (key : Bytes)
    (hw : heightsOkB node = true) (hb : balancedB node = true) :
    ∃ n' nk' v' t', t.recursiveRemove node key = .ok (n', nk', v', t') ∧
      t'.root = t.root ∧
      (∀ m, n' = some m → heightsOkB m = true ∧ balancedB m = true ∧
        m.hgt ≤ node.hgt ∧ node.hgt - 1 ≤ m.hgt) ∧
      (n' = none → node.hgt = 0) ∧
      (v' = none → ∃ m, n' = some m ∧ m.hgt = node.hgt) := by
  induction node generalizing t with
  | leaf a b c d =>
    by_cases hk : key = a
    · rcases d with _ | nk0
      · refine ⟨none, none, some b, t, ?_, rfl, ?_, ?_, ?_⟩
        · simp only [MTree.recursiveRemove, if_pos hk]
        · intro m hm; cases hm
        · intro _; rfl
        · intro hv; cases hv
      · refine ⟨none, none, some b, { t with orphans := t.orphans ++ [nk0] },
          ?_, rfl, ?_, ?_, ?_⟩
        · simp only [MTree.recursiveRemove, if_pos hk]
        · intro m hm; cases hm
        · intro _; rfl
        · intro hv; cases hv
    · refine ⟨some (.leaf a b c d), none, none, t, ?_, rfl, ?_, ?_, ?_⟩
      · simp only [MTree.recursiveRemove, if_neg hk]
      · intro m hm
        cases hm
        exact ⟨rfl, rfl, le_refl _, by simp⟩
      · intro hx; cases hx
      · intro _; exact ⟨_, rfl, rfl⟩
  | inner k h s hsh nk lnk rnk l r ihl ihr =>
    simp only [heightsOkB, Bool.and_eq_true, decide_eq_true_eq] at hw
    obtain ⟨⟨hhf, hwl⟩, hwr⟩ := hw
    simp only [balancedB, Bool.and_eq_true, decide_eq_true_eq] at hb
    obtain ⟨⟨⟨hq1, hq2⟩, hbl⟩, hbr⟩ := hb
    have hl0 := hgt_nonneg l hwl
    have hr0 := hgt_nonneg r hwr
    by_cases hcmp : bytesCompare key k = .lt
    · obtain ⟨n1, k1, v1, t1, heq, hroot1, hsome, hnone, hvnone⟩ := ihl t hwl hbl
      cases v1 with
      | none =>
        refine ⟨some (.inner k h s none none lnk rnk l r), none, none, t1,
          ?_, hroot1, ?_, ?_, ?_⟩
        · simp only [MTree.recursiveRemove, if_pos hcmp, heq]
        · intro m hm
          cases hm
          refine ⟨?_, ?_, ?_, ?_⟩
          · simp only [heightsOkB, Bool.and_eq_true, decide_eq_true_eq]
            exact ⟨⟨hhf, hwl⟩, hwr⟩
          · simp only [balancedB, Bool.and_eq_true, decide_eq_true_eq, hbl, hbr, and_true]
            omega
          · simp only [Node.hgt_inner]; omega
          · simp only [Node.hgt_inner]; omega
        · intro hx; cases hx
        · intro _; exact ⟨_, rfl, rfl⟩
      | some v =>
        cases n1 with
        | none =>
          have hlz : l.hgt = 0 := hnone rfl
          refine ⟨some r, some k, some v, t1, ?_, hroot1, ?_, ?_, ?_⟩
          · simp only [MTree.recursiveRemove, if_pos hcmp, heq]
          · intro m hm
            cases hm
            refine ⟨hwr, hbr, ?_, ?_⟩ <;> (simp only [Node.hgt_inner]; omega)
          · intro hx; cases hx
          · intro hv; cases hv
        | some nl =>
          obtain ⟨hwn, hbn, hbd1, hbd2⟩ := hsome nl rfl
          obtain ⟨m, hmeq, hmw, hmb, hmhgt, hmid⟩ :=
            balance_spec k (1 + max nl.hgt r.hgt) (nl.ssize + r.ssize) lnk rnk nl r
              hwn hwr hbn hbr rfl (by omega) (by omega)
          refine ⟨some m, k1, some v, t1, ?_, hroot1, ?_, ?_, ?_⟩
          · simp only [MTree.recursiveRemove, if_pos hcmp, heq,
              Node.calcHeightAndSize, hmeq]
          · intro m0 hm0
            cases hm0
            refine ⟨hmw, hmb, ?_, ?_⟩ <;>
              (by_cases hflat : nl.hgt - r.hgt ≤ 1 ∧ r.hgt - nl.hgt ≤ 1
               · have hm := hmid hflat.1 hflat.2
                 have hmh : m.hgt = 1 + max nl.hgt r.hgt := by rw [hm]; rfl
                 simp only [Node.hgt_inner]
                 omega
               · rcases hmhgt with hmh | hmh <;> (simp only [Node.hgt_inner]; omega))
          · intro hx; cases hx
          · intro hv; cases hv
    · obtain ⟨n1, k1, v1, t1, heq, hroot1, hsome, hnone, hvnone⟩ := ihr t hwr hbr
      cases v1 with
      | none =>
        refine ⟨some (.inner k h s none none lnk rnk l r), none, none, t1,
          ?_, hroot1, ?_, ?_, ?_⟩
        · simp only [MTree.recursiveRemove, if_neg hcmp, heq]
        · intro m hm
          cases hm
          refine ⟨?_, ?_, ?_, ?_⟩
          · simp only [heightsOkB, Bool.and_eq_true, decide_eq_true_eq]
            exact ⟨⟨hhf, hwl⟩, hwr⟩
          · simp only [balancedB, Bool.and_eq_true, decide_eq_true_eq, hbl, hbr, and_true]
            omega
          · simp only [Node.hgt_inner]; omega
          · simp only [Node.hgt_inner]; omega
        · intro hx; cases hx
        · intro _; exact ⟨_, rfl, rfl⟩
      | some v =>
        cases n1 with
        | none =>
          have hrz : r.hgt = 0 := hnone rfl
          refine ⟨some l, none, some v, t1, ?_, hroot1, ?_, ?_, ?_⟩
          · simp only [MTree.recursiveRemove, if_neg hcmp, heq]
          · intro m hm
            cases hm
            refine ⟨hwl, hbl, ?_, ?_⟩ <;> (simp only [Node.hgt_inner]; omega)
          · intro hx; cases hx
          · intro hv; cases hv
        | some nr =>
          obtain ⟨hwn, hbn, hbd1, hbd2⟩ := hsome nr rfl
          rcases k1 with _ | nk2
          · obtain ⟨m, hmeq, hmw, hmb, hmhgt, hmid⟩ :=
              balance_spec k (1 + max l.hgt nr.hgt) (l.ssize + nr.ssize) lnk rnk l nr
                hwl hwn hbl hbn rfl (by omega) (by omega)
            refine ⟨some m, none, some v, t1, ?_, hroot1, ?_, ?_, ?_⟩
            · simp only [MTree.recursiveRemove, if_neg hcmp, heq,
                Node.calcHeightAndSize, hmeq]
            · intro m0 hm0
              cases hm0
              refine ⟨hmw, hmb, ?_, ?_⟩ <;>
                (by_cases hflat : l.hgt - nr.hgt ≤ 1 ∧ nr.hgt - l.hgt ≤ 1
                 · have hm := hmid hflat.1 hflat.2
                   have hmh : m.hgt = 1 + max l.hgt nr.hgt := by rw [hm]; rfl
                   simp only [Node.hgt_inner]
                   omega
                 · rcases hmhgt with hmh | hmh <;> (simp only [Node.hgt_inner]; omega))
            · intro hx; cases hx
            · intro hv; cases hv
          · obtain ⟨m, hmeq, hmw, hmb, hmhgt, hmid⟩ :=
              balance_spec nk2 (1 + max l.hgt nr.hgt) (l.ssize + nr.ssize) lnk rnk l nr
                hwl hwn hbl hbn rfl (by omega) (by omega)
            refine ⟨some m, none, some v, t1, ?_, hroot1, ?_, ?_, ?_⟩
            · simp only [MTree.recursiveRemove, if_neg hcmp, heq,
                Node.calcHeightAndSize, hmeq]
            · intro m0 hm0
              cases hm0
              refine ⟨hmw, hmb, ?_, ?_⟩ <;>
                (by_cases hflat : l.hgt - nr.hgt ≤ 1 ∧ nr.hgt - l.hgt ≤ 1
                 · have hm := hmid hflat.1 hflat.2
                   have hmh : m.hgt = 1 + max l.hgt nr.hgt := by rw [hm]; rfl
                   simp only [Node.hgt_inner]
                   omega
                 · rcases hmhgt with hmh | hmh <;> (simp only [Node.hgt_inner]; omega))
            · intro hx; cases hx
            · intro hv; cases hv

/-- One client edit: `Set(key, value)` (with a possibly-nil value) or
`Remove(key)`. -/
inductive TreeOp where
  | setOp (key : Bytes) (value : Option Bytes)
  | removeOp (key : Bytes)

/-- Apply one edit through the public API, keeping the resulting state. -/
def applyOp (t : MTree) (op : TreeOp) : MTree :=
  match op with
  | .setOp key value => (t.Set key value).2.2
  | .removeOp key => (t.Remove key).2.2.2

theorem applyOp_avl (t : MTree) (op : TreeOp) (h : avlOptB t.root = true) :
    avlOptB (applyOp t op).root = true := by
  cases op with
  | setOp key value =>
    cases value with
    | none => simpa [applyOp, MTree.Set, MTree.set] using h
    | some v =>
      cases hroot : t.root with
      | none =>
        simp [applyOp, MTree.Set, MTree.set, hroot, avlOptB, avlB, heightsOkB, balancedB,
          NewNode]
      | some root =>
        have hr : avlB root = true := by rw [hroot] at h; exact h
        simp only [avlB, Bool.and_eq_true] at hr
        obtain ⟨hw, hb⟩ := hr
        obtain ⟨n', u, t', heq, hw', hb', _, _, _⟩ := recursiveSet_spec root t key v hw hb
        simp only [applyOp, MTree.Set, MTree.set, hroot, heq]
        simp [avlOptB, avlB, hw', hb']
  | removeOp key =>
    cases hroot : t.root with
    | none => simpa [applyOp, MTree.Remove, hroot] using h
    | some root =>
      have hr : avlB root = true := by rw [hroot] at h; exact h
      simp only [avlB, Bool.and_eq_true] at hr
      obtain ⟨hw, hb⟩ := hr
      obtain ⟨n', nk', v', t', heq, hroot', hsome, hnone, hvnone⟩ :=
        recursiveRemove_spec root t key hw hb
      cases v' with
      | none =>
        simp only [applyOp, MTree.Remove, hroot, heq]
        rw [hroot', hroot]
        simp [avlOptB, avlB, hw, hb]
      | some v =>
        cases n' with
        | none => simp [applyOp, MTree.Remove, hroot, heq, avlOptB]
        | some m =>
          obtain ⟨hwm, hbm, _, _⟩ := hsome m rfl
          simp [applyOp, MTree.Remove, hroot, heq, avlOptB, avlB, hwm, hbm]

/-- **C1.** Every sequence of `Set` and `Remove` operations applied to a
`MutableTree` whose working root initially satisfies the AVL balance
condition (with consistent stored heights; the empty tree included) yields
a working root all of whose inner nodes satisfy
`|height(left) − height(right)| ≤ 1`, both for the stored and for the true
recomputed heights; balance is restored by the four rotation cases of
`balance`, invoked from `recursiveSet` and `recursiveRemove`. -/
theorem set_remove_preserve_avl (t : MTree) (ops : List TreeOp)
    (h : avlOptB t.root = true) :
    avlOptB ((ops.foldl applyOp t).root) = true ∧
    realBalancedOptB ((ops.foldl applyOp t).root) = true := by
  have main : avlOptB ((ops.foldl applyOp t).root) = true := by
    induction ops generalizing t with
    | nil => exact h
    | cons op ops ih => exact ih _ (applyOp_avl t op h)
  refine ⟨main, ?_⟩
  cases hroot : (ops.foldl applyOp t).root with
  | none => rfl
  | some n =>
    rw [hroot] at main
    simp only [avlOptB, avlB, Bool.and_eq_true] at main
    show realBalancedB n = true
    exact balancedB_real n main.1 main.2

/-- Witness for `set_remove_preserve_avl`: the empty tree, five insertions
in ascending order (forcing rotations) followed by two removals. -/
theorem set_remove_preserve_avl_witness :
    avlOptB (MTree.mk none 0 false [] [] []).root = true ∧
    (avlOptB (([TreeOp.setOp [1] (some [10]), .setOp [2] (some [20]),
        .setOp [3] (some [30]), .setOp [4] (some [40]), .setOp [5] (some [50]),
        .removeOp [2], .removeOp [4]].foldl applyOp
        (MTree.mk none 0 false [] [] [])).root) = true ∧
      realBalancedOptB (([TreeOp.setOp [1] (some [10]), .setOp [2] (some [20]),
        .setOp [3] (some [30]), .setOp [4] (some [40]), .setOp [5] (some [50]),
        .removeOp [2], .removeOp [4]].foldl applyOp
        (MTree.mk none 0 false [] [] [])).root) = true) :=
  ⟨by decide, set_remove_preserve_avl (MTree.mk none 0 false [] [] []) _ (by decide)⟩

/-- **C3.** The two asymmetric details of `recursiveRemove` on an inner
node: a collapsed left subtree promotes the untouched right child and
propagates the routing key as the new minimum; a new minimum arriving from
the right subtree is written into the routing key before the node is
rebalanced, and `none` is sent further up. -/
theorem recursiveRemove_promotion :
    (∀ (t t1 : MTree) (key k : Bytes) (h s : Int) (hsh : Option Bytes)
      (nk lnk rnk : Option NodeKey) (l r : Node) (nk1 : Option Bytes) (v : Bytes),
      bytesCompare key k = .lt →
      t.recursiveRemove l key = .ok (none, nk1, some v, t1) →
      t.recursiveRemove (.inner k h s hsh nk lnk rnk l r) key
        = .ok (some r, some k, some v, t1)) ∧
    (∀ (t t1 : MTree) (key k : Bytes) (h s : Int) (hsh : Option Bytes)
      (nk lnk rnk : Option NodeKey) (l r nr : Node) (newMin : Bytes) (v : Bytes),
      ¬ bytesCompare key k = .lt →
      t.recursiveRemove r key = .ok (some nr, some newMin, some v, t1) →
      t.recursiveRemove (.inner k h s hsh nk lnk rnk l r) key
        = (match Node.calcHeightAndSize (.inner newMin h s none none lnk rnk l nr) with
          | .error e => .error e
          | .ok node2 =>
            match balance node2 with
            | .error e => .error e
            | .ok m => .ok (some m, none, some v, t1))) := by
  constructor
  · intro t t1 key k h s hsh nk lnk rnk l r nk1 v hcmp hrec
    simp only [MTree.recursiveRemove, if_pos hcmp, hrec]
  · intro t t1 key k h s hsh nk lnk rnk l r nr newMin v hcmp hrec
    simp only [MTree.recursiveRemove, if_neg hcmp, hrec]

/-- Witness for `recursiveRemove_promotion`: both parts applied to concrete
three- and four-leaf trees. -/
theorem recursiveRemove_promotion_witness :
    (bytesCompare [1] [2] = .lt ∧
      (MTree.mk none 0 false [] [] []).recursiveRemove (.leaf [1] [10] none none) [1]
        = .ok (none, none, some [10], MTree.mk none 0 false [] [] []) ∧
      (MTree.mk none 0 false [] [] []).recursiveRemove
          (.inner [2] 1 2 none none none none (.leaf [1] [10] none none)
            (.leaf [2] [20] none none)) [1]
        = .ok (some (.leaf [2] [20] none none), some [2], some [10],
            MTree.mk none 0 false [] [] [])) ∧
    (¬ bytesCompare [2] [2] = .lt ∧
      (MTree.mk none 0 false [] [] []).recursiveRemove
          (.inner [3] 1 2 none none none none (.leaf [2] [20] none none)
            (.leaf [3] [30] none none)) [2]
        = .ok (some (.leaf [3] [30] none none), some [3], some [20],
            MTree.mk none 0 false [] [] []) ∧
      (MTree.mk none 0 false [] [] []).recursiveRemove
          (.inner [2] 2 3 none none none none (.leaf [1] [10] none none)
            (.inner [3] 1 2 none none none none (.leaf [2] [20] none none)
              (.leaf [3] [30] none none))) [2]
        = (match Node.calcHeightAndSize (.inner [3] 2 3 none none none none
              (.leaf [1] [10] none none) (.leaf [3] [30] none none)) with
          | .error e => .error e
          | .ok node2 =>
            match balance node2 with
            | .error e => .error e
            | .ok m => .ok (some m, none, some [20],
                MTree.mk none 0 false [] [] []))) :=
  ⟨⟨rfl, rfl, recursiveRemove_promotion.1 (MTree.mk none 0 false [] [] [])
      (MTree.mk none 0 false [] [] []) [1] [2] 1 2 none none none none
      (.leaf [1] [10] none none) (.leaf [2] [20] none none) none [10] rfl rfl⟩,
    ⟨by decide, rfl, recursiveRemove_promotion.2 (MTree.mk none 0 false [] [] [])
      (MTree.mk none 0 false [] [] []) [2] [2] 2 3 none none none none
      (.leaf [1] [10] none none)
      (.inner [3] 1 2 none none none none (.leaf [2] [20] none none)
        (.leaf [3] [30] none none))
      (.leaf [3] [30] none none) [3] [20] (by decide) rfl⟩⟩

/-- Whether some leaf of the subtree carries exactly this key. -/
def containsKeyB : Node → Bytes → Bool
  | .leaf nkey _ _ _, key => decide (key = nkey)
  | .inner _ _ _ _ _ _ _ l r, key => containsKeyB l key || containsKeyB r key

/-- On a subtree that does not contain the key anywhere, `recursiveRemove`
reports not-found and leaves the threaded state exactly unchanged. -/
theorem recursiveRemove_notfound (node : Node) (t : MTree) (key : Bytes)
    (h : containsKeyB node key = false) :
    ∃ n', t.recursiveRemove node key = .ok (some n', none, none, t) := by
  induction node generalizing t with
  | leaf a b c d =>
    simp only [containsKeyB, decide_eq_false_iff_not] at h
    exact ⟨.leaf a b c d, by simp only [MTree.recursiveRemove, if_neg h]⟩
  | inner k h2 s hsh nk lnk rnk l r ihl ihr =>
    simp only [containsKeyB, Bool.or_eq_false_iff] at h
    by_cases hcmp : bytesCompare key k = .lt
    · obtain ⟨n1, heq⟩ := ihl t h.1
      exact ⟨.inner k h2 s none none lnk rnk l r,
        by simp only [MTree.recursiveRemove, if_pos hcmp, heq]⟩
    · obtain ⟨n1, heq⟩ := ihr t h.2
      exact ⟨.inner k h2 s none none lnk rnk l r,
        by simp only [MTree.recursiveRemove, if_neg hcmp, heq]⟩

/-- **C9.** Removing a key that is not present in the working tree
(including the null-root case) returns `(null, false, nil error)` and
leaves the entire tree state — root pointer, orphans, and both unsaved
fast-index maps — unchanged. -/
theorem Remove_absent (t : MTree) (key : Bytes)
    (h : ∀ root, t.root = some root → containsKeyB root key = false) :
    t.Remove key = (none, false, none, t) := by
  cases hroot : t.root with
  | none => simp only [MTree.Remove, hroot]
  | some root =>
    obtain ⟨n', heq⟩ := recursiveRemove_notfound root t key (h root hroot)
    simp only [MTree.Remove, hroot, heq]

/-- Witness for `Remove_absent`: removing an absent key from a two-leaf
tree. -/
theorem Remove_absent_witness :
    (∀ root, (MTree.mk (some (.inner [2] 1 2 none none none none
        (.leaf [1] [10] none none) (.leaf [2] [20] none none))) 0 false [] [] []).root
        = some root → containsKeyB root [7] = false) ∧
    (MTree.mk (some (.inner [2] 1 2 none none none none
        (.leaf [1] [10] none none) (.leaf [2] [20] none none))) 0 false [] [] []).Remove [7]
      = (none, false, none,
        MTree.mk (some (.inner [2] 1 2 none none none none
          (.leaf [1] [10] none none) (.leaf [2] [20] none none))) 0 false [] [] []) :=
  ⟨by decide, Remove_absent _ [7] (by decide)⟩

/-- **C5.** `MutableTree.Get`: a null root answers null; with the fast
index active the unsaved additions answer first, then the unsaved removals
answer null, and every remaining case (including a skipped fast index)
falls through to `ImmutableTree.Get` on the working root. -/
theorem Get_overlay (t : MTree) (key : Bytes) :
    (t.root = none → t.Get key = none) ∧
    (∀ root, t.root = some root →
      (t.skipFastStorageUpgrade = false →
        (∀ fn, t.unsavedFastNodeAdditions.lookup key = some fn →
          t.Get key = some fn.GetValue) ∧
        (t.unsavedFastNodeAdditions.lookup key = none →
          t.unsavedFastNodeRemovals.contains key = true → t.Get key = none) ∧
        (t.unsavedFastNodeAdditions.lookup key = none →
          t.unsavedFastNodeRemovals.contains key = false →
          t.Get key = itreeGet root key)) ∧
      (t.skipFastStorageUpgrade = true → t.Get key = itreeGet root key)) := by
  constructor
  · intro hroot
    simp only [MTree.Get, hroot]
  · intro root hroot
    constructor
    · intro hskip
      refine ⟨?_, ?_, ?_⟩
      · intro fn hfn
        simp only [MTree.Get, hroot, hskip, Bool.not_false, if_true, hfn]
      · intro hfn hrem
        simp only [MTree.Get, hroot, hskip, Bool.not_false, if_true, hfn, hrem]
      · intro hfn hrem
        simp only [MTree.Get, hroot, hskip, Bool.not_false, if_true, hfn, hrem,
          Bool.false_eq_true, if_false]
    · intro hskip
      simp only [MTree.Get, hroot, hskip, Bool.not_true, Bool.false_eq_true, if_false]

/-- Witness for `Get_overlay`: all four branches on concrete states. -/
theorem Get_overlay_witness :
    ((MTree.mk none 0 false [] [] []).Get [1] = none) ∧
    ((MTree.mk (some (.leaf [1] [10] none none)) 0 false
        [] [([1], FastNode.mk [1] [99] 1)] []).Get [1] = some [99]) ∧
    ((MTree.mk (some (.leaf [1] [10] none none)) 0 false [] [] [[1]]).Get [1] = none) ∧
    ((MTree.mk (some (.leaf [1] [10] none none)) 0 false [] [] []).Get [1]
      = itreeGet (.leaf [1] [10] none none) [1]) ∧
    ((MTree.mk (some (.leaf [1] [10] none none)) 0 true [] [] [[1]]).Get [1]
      = itreeGet (.leaf [1] [10] none none) [1]) :=
  ⟨(Get_overlay (MTree.mk none 0 false [] [] []) [1]).1 rfl,
    ((Get_overlay (MTree.mk (some (.leaf [1] [10] none none)) 0 false
        [] [([1], FastNode.mk [1] [99] 1)] []) [1]).2 _ rfl).1 rfl
      |>.1 (FastNode.mk [1] [99] 1) (by decide),
    ((Get_overlay (MTree.mk (some (.leaf [1] [10] none none)) 0 false [] [] [[1]]) [1]).2
        _ rfl).1 rfl |>.2.1 (by decide) (by decide),
    ((Get_overlay (MTree.mk (some (.leaf [1] [10] none none)) 0 false [] [] []) [1]).2
        _ rfl).1 rfl |>.2.2 (by decide) (by decide),
    ((Get_overlay (MTree.mk (some (.leaf [1] [10] none none)) 0 true [] [] [[1]]) [1]).2
        _ rfl).2 rfl⟩

/-- **C6, counterexample.** `Set` with an empty (but non-null) value
succeeds — the code checks only for a nil value — contradicting the claim
that every null-or-empty value fails. -/
theorem set_accepts_empty_value :
    (MTree.mk none 0 false [] [] []).Set [1] (some [])
      = (false, none,
        MTree.mk (some (.leaf [1] [] none none)) 0 false []
          [([1], FastNode.mk [1] [] 1)] []) := by
  decide

/-- **C6, amended.** `Set(key, value)` fails with an error exactly when
`value` is null (nil); in that failing case the entire tree state —
working tree and unsaved fast-index maps — is unchanged. -/
theorem Set_nil_value_fails (t : MTree) (key : Bytes) :
    ∃ e, t.Set key none = (false, some e, t) :=
  ⟨"attempt to store nil value at key", rfl⟩

/-!
## Persistence layer

Nodes with sum-typed child references, exactly mirroring the Go `Node`
struct: each of the two children may be held as an in-memory pointer
(`leftNode`), as a persistent identity (`leftNodeKey`), both, or (for
leaves) neither.  A leaf is recognized by `subtreeHeight == 0`.  This is
the representation `saveNewNodes`, `SaveVersion`, `Rollback`,
`GetImmutable` and `GetVersioned` operate on.
-/
inductive SNode where
  | mk (key value : Bytes) (subtreeHeight size : Int) (hash : Option Bytes)
      (nodeKey leftNodeKey rightNodeKey : Option NodeKey)
      (leftNode rightNode : Option SNode)

def SNode.key : SNode → Bytes
  | .mk k _ _ _ _ _ _ _ _ _ => k

def SNode.value : SNode → Bytes
  | .mk _ v _ _ _ _ _ _ _ _ => v

def SNode.subtreeHeight : SNode → Int
  | .mk _ _ ht _ _ _ _ _ _ _ => ht

def SNode.size : SNode → Int
  | .mk _ _ _ sz _ _ _ _ _ _ => sz

def SNode.hash : SNode → Option Bytes
  | .mk _ _ _ _ hsh _ _ _ _ _ => hsh

def SNode.nodeKey : SNode → Option NodeKey
  | .mk _ _ _ _ _ nk _ _ _ _ => nk

def SNode.leftNodeKey : SNode → Option NodeKey
  | .mk _ _ _ _ _ _ lnk _ _ _ => lnk

def SNode.rightNodeKey : SNode → Option NodeKey
  | .mk _ _ _ _ _ _ _ rnk _ _ => rnk

def SNode.leftNode : SNode → Option SNode
  | .mk _ _ _ _ _ _ _ _ l _ => l

def SNode.rightNode : SNode → Option SNode
  | .mk _ _ _ _ _ _ _ _ _ r => r

/-- `node.isLeaf()`: `subtreeHeight == 0`. -/
def SNode.isLeaf (n : SNode) : Bool := n.subtreeHeight == 0

/-- Decidable equality for `SNode` (the nested children prevent automatic
derivation). -/
def SNode.deq : (a b : SNode) → Decidable (a = b)
  | .mk k1 v1 ht1 s1 hs1 n1 ln1 rn1 l1 r1, .mk k2 v2 ht2 s2 hs2 n2 ln2 rn2 l2 r2 =>
    haveI dl : Decidable (l1 = l2) :=
      match l1, l2 with
      | none, none => isTrue rfl
      | some x, some y =>
        match SNode.deq x y with
        | isTrue h => isTrue (by rw [h])
        | isFalse h => isFalse (by simp only [Option.some.injEq]; exact h)
      | none, some _ => isFalse (by simp)
      | some _, none => isFalse (by simp)
    haveI dr : Decidable (r1 = r2) :=
      match r1, r2 with
      | none, none => isTrue rfl
      | some x, some y =>
        match SNode.deq x y with
        | isTrue h => isTrue (by rw [h])
        | isFalse h => isFalse (by simp only [Option.some.injEq]; exact h)
      | none, some _ => isFalse (by simp)
      | some _, none => isFalse (by simp)
    decidable_of_iff (k1 = k2 ∧ v1 = v2 ∧ ht1 = ht2 ∧ s1 = s2 ∧ hs1 = hs2 ∧
      n1 = n2 ∧ ln1 = ln2 ∧ rn1 = rn2 ∧ l1 = l2 ∧ r1 = r2)
      (by rw [SNode.mk.injEq])

instance : DecidableEq SNode := SNode.deq

/-- An injective flattening of an integer into a byte. -/
def encInt (i : Int) : Nat := 2 * i.natAbs + (if i < 0 then 1 else 0)

/-- Modelled from the spec: the canonical digest of a leaf node (node.go is
not among the provided sources).  The spec only requires a deterministic
encoding in which identical logical nodes produce identical bytes, so the
digest is taken to be the encoding itself: height, size, hashing version,
key and value, length-prefixed.  It is never empty. -/
def leafDigest (version ht sz : Int) (key value : Bytes) : Bytes :=
  0 :: encInt ht :: encInt sz :: encInt version :: key.length :: key
    ++ value.length :: value

/-- Modelled from the spec: the canonical digest of an inner node: height,
size, hashing version and the two child hashes.  It is never empty. -/
def innerDigest (version ht sz : Int) (leftHash rightHash : Bytes) : Bytes :=
  1 :: encInt ht :: encInt sz :: encInt version :: leftHash.length :: leftHash
    ++ rightHash.length :: rightHash

/-- Modelled from the spec: `node._hash(version)` (node.go is not among
the provided sources): a cached hash is returned as is; otherwise the
digest is computed — for an inner node from the recursively computed child
hashes, which requires the children to be in memory — and cached in the
node. -/
def SNode.hashRec (version : Int) : SNode → Except String (SNode × Bytes)
  | .mk k v ht sz (some h) nk lnk rnk l r =>
    .ok (.mk k v ht sz (some h) nk lnk rnk l r, h)
  | .mk k v ht sz none nk lnk rnk l r =>
    if ht = 0 then
      let h := leafDigest version ht sz k v
      .ok (.mk k v ht sz (some h) nk lnk rnk l r, h)
    else
      match l, r with
      | some lc, some rc =>
        match SNode.hashRec version lc with
        | .error e => .error e
        | .ok (lc', lh) =>
          match SNode.hashRec version rc with
          | .error e => .error e
          | .ok (rc', rh) =>
            let h := innerDigest version ht sz lh rh
            .ok (.mk k v ht sz (some h) nk lnk rnk (some lc') (some rc'), h)
      | _, _ => .error "hash: inner node is missing a child"

/-- The working or last-saved `ImmutableTree`: a (possibly null) root, the
version it is bound to, the identity of the NodeDB it is bound to, and the
fast-storage flag. -/
structure ITree where
  root : Option SNode
  version : Int
  ndbId : Nat
  skipFastStorageUpgrade : Bool

/-- `ImmutableTree.clone`: a shallow copy — it shares the root subtree, so
with value semantics it is the identity. -/
def ITree.clone (t : ITree) : ITree := t

/-- Modelled from the spec: `ImmutableTree.Hash` (immutable_tree.go is not
among the provided sources): the empty tree hashes to null, otherwise the
root digest at `version + 1` (cached hashes are reused). -/
def ITreeHash (it : ITree) : Except String Bytes :=
  match it.root with
  | none => .ok []
  | some r =>
    match r.hashRec (it.version + 1) with
    | .error e => .error e
    | .ok (_, h) => .ok h

/-- Modelled from the spec: the NodeDB the core consumes (nodedb.go is not
among the provided sources).  Reads are oracles (`Except`-valued function
fields); `HasVersion`'s error is discarded by the caller, so it is a plain
`Bool` oracle.  Writes (`SaveNode`, fast-node staging) append to logs:
batch staging itself does not fail, `Commit` fails according to
`commitErr`. -/
structure NodeDB where
  ndbId : Nat
  getRootF : Int → Except String (Option NodeKey)
  getNodeF : NodeKey → Except String SNode
  hasVersionF : Int → Bool
  getFastNodeF : Bytes → Except String (Option FastNode)
  isFastCacheEnabledF : Except String Bool
  latestVersion : Int
  initialVersion : Int
  commitErr : Option String
  savedNodes : List SNode
  savedFastNodes : List FastNode
  deletedFastNodes : List Bytes
  fastStorageVersion : Int

/-- The full `MutableTree` state: the embedded working `ImmutableTree`,
the last saved snapshot, orphans, the memoized known-versions map, the
`allRootLoaded` flag, the unsaved fast-index maps, the NodeDB and the
fast-storage flag. -/
structure MutableTree where
  itree : ITree
  lastSaved : ITree
  orphans : List NodeKey
  versions : List (Int × Bool)
  allRootLoaded : Bool
  unsavedFastNodeAdditions : List (Bytes × FastNode)
  unsavedFastNodeRemovals : List Bytes
  ndb : NodeDB
  skipFastStorageUpgrade : Bool

/-- `MutableTree.VersionExists` (`mutable_tree.go`): with all roots loaded
answer from the in-memory map (absent means false); otherwise answer from
the map if known, else ask the backing store (discarding its error) and
memoize. -/
def MutableTree.VersionExists (t : MutableTree) (version : Int) :
    Bool × MutableTree :=
  if t.allRootLoaded then
    (match t.versions.lookup version with
      | some b => b
      | none => false, t)
  else
    match t.versions.lookup version with
    | some has => (has, t)
    | none =>
      let has := t.ndb.hasVersionF version
      (has, { t with versions := (version, has) :: t.versions })

/-- `MutableTree.WorkingHash`: hash of the current working tree. -/
def MutableTree.WorkingHash (t : MutableTree) : Except String Bytes :=
  ITreeHash t.itree

/-- `MutableTree.Hash`: hash of the latest saved version. -/
def MutableTree.Hash (t : MutableTree) : Except String Bytes :=
  ITreeHash t.lastSaved

/-- `MutableTree.GetImmutable` (`mutable_tree.go`): resolve the root
NodeKey for the version (a missing root pointer is
`ErrVersionDoesNotExist`), mark the version known, and materialize the
root unless the root NodeKey has version 0 (the null root). -/
def MutableTree.GetImmutable (t : MutableTree) (version : Int) :
    Except String ITree × MutableTree :=
  match t.ndb.getRootF version with
  | .error e => (.error e, t)
  | .ok none => (.error "version does not exist", t)
  | .ok (some rootNodeKey) =>
    let t := { t with
      versions := (version, true) :: t.versions.filter (fun p => p.1 ≠ version) }
    if rootNodeKey.version ≠ 0 then
      match t.ndb.getNodeF rootNodeKey with
      | .error e => (.error e, t)
      | .ok root =>
        (.ok ⟨some root, version, t.ndb.ndbId, t.skipFastStorageUpgrade⟩, t)
    else
      (.ok ⟨none, version, t.ndb.ndbId, t.skipFastStorageUpgrade⟩, t)

/-- Modelled from the spec: materializing a child reference — the
in-memory pointer when present, else a NodeDB read through the child
NodeKey. -/
def getChildNode (ndb : NodeDB) (childNode : Option SNode)
    (childKey : Option NodeKey) : Except String SNode :=
  match childNode with
  | some n => .ok n
  | none =>
    match childKey with
    | some nk => ndb.getNodeF nk
    | none => .error "node is missing a child"

/-- Modelled from the spec: the binary-search-tree descent of
`ImmutableTree.Get`.  Because the NodeDB is an abstract oracle the descent
carries fuel; the bound `2^64` exceeds the depth of any tree addressable
in the source's pointer space, so it only rules out oracles describing
cyclic stores. -/
def treeGet (ndb : NodeDB) : Nat → SNode → Bytes → Except String (Option Bytes)
  | 0, _, _ => .error "maximum traversal depth exceeded"
  | fuel + 1, n, key =>
    if n.isLeaf then
      .ok (if key = n.key then some n.value else none)
    else if bytesCompare key n.key = .lt then
      match getChildNode ndb n.leftNode n.leftNodeKey with
      | .error e => .error e
      | .ok child => treeGet ndb fuel child key
    else
      match getChildNode ndb n.rightNode n.rightNodeKey with
      | .error e => .error e
      | .ok child => treeGet ndb fuel child key

/-- Modelled from the spec: `ImmutableTree.Get` as plain tree traversal. -/
def ITree.Get (ndb : NodeDB) (it : ITree) (key : Bytes) :
    Except String (Option Bytes) :=
  match it.root with
  | none => .ok none
  | some r => treeGet ndb (2 ^ 64) r key

/-- The fast-cache consultation step of `GetVersioned`
(`mutable_tree.go`, the body of the `!tree.skipFastStorageUpgrade` block):
`.ok (some result)` is an early return, `.ok none` falls through to the
snapshot load.  The `GetFastNode` error is discarded, as in the source;
an `IsFastCacheEnabled` failure is propagated. -/
def MutableTree.fastTry (t : MutableTree) (key : Bytes) (version : Int) :
    Except String (Option (Option Bytes)) :=
  if !t.skipFastStorageUpgrade then
    match t.ndb.isFastCacheEnabledF with
    | .error e => .error e
    | .ok isFastCacheEnabled =>
      if isFastCacheEnabled then
        let fastNode := match t.ndb.getFastNodeF key with
          | .ok fn => fn
          | .error _ => none
        if fastNode.isNone && decide (version = t.ndb.latestVersion) then
          .ok (some none)
        else
          match fastNode with
          | some fn =>
            if fn.versionLastUpdatedAt ≤ version then .ok (some (some fn.GetValue))
            else .ok none
          | none => .ok none
      else .ok none
  else .ok none

/-- `MutableTree.GetVersioned` (`mutable_tree.go`): an absent version
answers null with no error; then the fast cache may answer; then the
immutable snapshot is loaded — a load failure is reported as absent (null,
no error) — and traversed, traversal errors propagating. -/
def MutableTree.GetVersioned (t : MutableTree) (key : Bytes) (version : Int) :
    Except String (Option Bytes) × MutableTree :=
  let res := t.VersionExists version
  if res.1 then
    match res.2.fastTry key version with
    | .error e => (.error e, res.2)
    | .ok (some result) => (.ok result, res.2)
    | .ok none =>
      match res.2.GetImmutable version with
      | (.error _, t2) => (.ok none, t2)
      | (.ok it, t2) =>
        match ITree.Get t2.ndb it key with
        | .error e => (.error e, t2)
        | .ok value => (.ok value, t2)
  else (.ok none, res.2)

/-- `MutableTree.Rollback` (`mutable_tree.go`): reset the working tree to
a clone of `lastSaved` when a version has been saved, else to an empty
tree bound to the same NodeDB; clear orphans, and clear the unsaved
fast-index maps unless fast storage is skipped. -/
def MutableTree.Rollback (t : MutableTree) : MutableTree :=
  let it := if t.itree.version > 0 then t.lastSaved.clone
    else ITree.mk none 0 t.ndb.ndbId t.skipFastStorageUpgrade
  { t with
    itree := it
    orphans := []
    unsavedFastNodeAdditions :=
      if !t.skipFastStorageUpgrade then [] else t.unsavedFastNodeAdditions
    unsavedFastNodeRemovals :=
      if !t.skipFastStorageUpgrade then [] else t.unsavedFastNodeRemovals }

/-!
## `saveNewNodes` and `SaveVersion`
-/

/-- The identity-assignment pass of `saveNewNodes` (`mutable_tree.go`): a
node that already has a NodeKey is returned unchanged; a transient node
receives `(version, path)`, its left child is visited at `path << 1` and
its right child at `(path << 1) | 1`, a child-key pointer is written
exactly when the child's NodeKey version is less than the new version, and
finally the node is hashed (`node._hash(version)`). -/
def recursiveAssignKey (version : Int) : SNode → Nat → Except String (SNode × NodeKey)
  | .mk k v ht sz hsh (some nk) lnk rnk l r, _ =>
    .ok (.mk k v ht sz hsh (some nk) lnk rnk l r, nk)
  | .mk k v ht sz hsh none lnk rnk l r, path =>
    match l, r with
    | none, none =>
      match SNode.hashRec version
          (.mk k v ht sz hsh (some ⟨version, path⟩) lnk rnk none none) with
      | .error e => .error e
      | .ok (n', _) => .ok (n', ⟨version, path⟩)
    | some lc, none =>
      match recursiveAssignKey version lc (2 * path) with
      | .error e => .error e
      | .ok (lc', leftNodeKey) =>
        let lnk' := if leftNodeKey.version < version then some leftNodeKey else lnk
        match SNode.hashRec version
            (.mk k v ht sz hsh (some ⟨version, path⟩) lnk' rnk (some lc') none) with
        | .error e => .error e
        | .ok (n', _) => .ok (n', ⟨version, path⟩)
    | none, some rc =>
      match recursiveAssignKey version rc (2 * path + 1) with
      | .error e => .error e
      | .ok (rc', rightNodeKey) =>
        let rnk' := if rightNodeKey.version < version then some rightNodeKey else rnk
        match SNode.hashRec version
            (.mk k v ht sz hsh (some ⟨version, path⟩) lnk rnk' none (some rc')) with
        | .error e => .error e
        | .ok (n', _) => .ok (n', ⟨version, path⟩)
    | some lc, some rc =>
      match recursiveAssignKey version lc (2 * path) with
      | .error e => .error e
      | .ok (lc', leftNodeKey) =>
        let lnk' := if leftNodeKey.version < version then some leftNodeKey else lnk
        match recursiveAssignKey version rc (2 * path + 1) with
        | .error e => .error e
        | .ok (rc', rightNodeKey) =>
          let rnk' := if rightNodeKey.version < version then some rightNodeKey else rnk
          match SNode.hashRec version
              (.mk k v ht sz hsh (some ⟨version, path⟩) lnk' rnk'
                (some lc') (some rc')) with
          | .error e => .error e
          | .ok (n', _) => .ok (n', ⟨version, path⟩)

/-- The persistence pass of `saveNewNodes` (`mutable_tree.go`): a node
whose NodeKey version is below the save version is skipped together with
its subtree; otherwise the node is staged with `SaveNode` (recorded in the
returned list, parent first) and, after each child subtree is saved, the
in-memory child pointer is dropped.  A missing NodeKey is the nil-pointer
dereference of the source, modelled as an error. -/
def recursiveSave (version : Int) : SNode → Except String (List SNode × SNode)
  | .mk k v ht sz hsh none lnk rnk l r =>
    let _ := (k, v, ht, sz, hsh, lnk, rnk, l, r)
    .error "recursiveSave: nil node key"
  | .mk k v ht sz hsh (some nk) lnk rnk l r =>
    if nk.version < version then .ok ([], .mk k v ht sz hsh (some nk) lnk rnk l r)
    else
      match l, r with
      | none, none =>
        .ok ([.mk k v ht sz hsh (some nk) lnk rnk none none],
          .mk k v ht sz hsh (some nk) lnk rnk none none)
      | some lc, none =>
        match recursiveSave version lc with
        | .error e => .error e
        | .ok (lsaved, _) =>
          .ok (.mk k v ht sz hsh (some nk) lnk rnk (some lc) none :: lsaved,
            .mk k v ht sz hsh (some nk) lnk rnk none none)
      | none, some rc =>
        match recursiveSave version rc with
        | .error e => .error e
        | .ok (rsaved, _) =>
          .ok (.mk k v ht sz hsh (some nk) lnk rnk none (some rc) :: rsaved,
            .mk k v ht sz hsh (some nk) lnk rnk none none)
      | some lc, some rc =>
        match recursiveSave version lc with
        | .error e => .error e
        | .ok (lsaved, _) =>
          match recursiveSave version rc with
          | .error e => .error e
          | .ok (rsaved, _) =>
            .ok (.mk k v ht sz hsh (some nk) lnk rnk (some lc) (some rc)
                :: (lsaved ++ rsaved),
              .mk k v ht sz hsh (some nk) lnk rnk none none)

/-- `MutableTree.saveNewNodes` (`mutable_tree.go`): assign identities from
the root with path 1, then save recursively, appending the staged nodes to
the NodeDB write log and installing the pruned root. -/
def MutableTree.saveNewNodes (t : MutableTree) : Except String MutableTree :=
  let version := t.itree.version + 1
  match t.itree.root with
  | none => .error "saveNewNodes: nil root"
  | some root =>
    match recursiveAssignKey version root 1 with
    | .error e => .error e
    | .ok (root2, _) =>
      match recursiveSave version root2 with
      | .error e => .error e
      | .ok (saved, root3) =>
        .ok { t with
          itree := { t.itree with root := some root3 }
          ndb := { t.ndb with savedNodes := t.ndb.savedNodes ++ saved } }

/-- Insertion of one byte string into a sorted list (`sort.Strings` is
modelled as insertion sort; only determinism matters here). -/
def insertSorted (x : Bytes) : List Bytes → List Bytes
  | [] => [x]
  | y :: ys => if bytesCompare x y = .gt then y :: insertSorted x ys else x :: y :: ys

/-- Sort byte strings ascending. -/
def sortBytes (l : List Bytes) : List Bytes := l.foldr insertSorted []

/-- `saveFastNodeAdditions`: stage every unsaved fast-node addition in
ascending key order. -/
def MutableTree.saveFastNodeAdditions (t : MutableTree) : MutableTree :=
  let keys := sortBytes (t.unsavedFastNodeAdditions.map (fun p => p.1))
  { t with ndb := { t.ndb with
      savedFastNodes := t.ndb.savedFastNodes ++
        keys.filterMap (fun k => t.unsavedFastNodeAdditions.lookup k) } }

/-- `saveFastNodeRemovals`: stage every unsaved fast-node removal in
ascending key order. -/
def MutableTree.saveFastNodeRemovals (t : MutableTree) : MutableTree :=
  { t with ndb := { t.ndb with
      deletedFastNodes := t.ndb.deletedFastNodes ++
        sortBytes t.unsavedFastNodeRemovals } }

/-- `saveFastNodeVersion`: additions, then removals, then the fast-storage
version marker. -/
def MutableTree.saveFastNodeVersion (t : MutableTree) (version : Int) : MutableTree :=
  let t := t.saveFastNodeAdditions
  let t := t.saveFastNodeRemovals
  { t with ndb := { t.ndb with fastStorageVersion := version } }

/-- The target version of the next save (`mutable_tree.go`, head of
`SaveVersion`): `current + 1`, or `InitialVersion` for the first save when
that option is set. -/
def MutableTree.targetVersion (t : MutableTree) : Int :=
  if t.itree.version + 1 = 1 ∧ t.ndb.initialVersion > 0 then t.ndb.initialVersion
  else t.itree.version + 1

/-- Loading the already-saved root during an existing-version save
(`mutable_tree.go`, the body of the `VersionExists` branch of
`SaveVersion`): resolve the root NodeKey — the source dereferences it
unconditionally, so a null answer is an error — and materialize the root
unless the NodeKey version is 0. -/
def MutableTree.loadExistingRoot (t : MutableTree) (version : Int) :
    Except String (NodeKey × Option SNode) :=
  match t.ndb.getRootF version with
  | .error e => .error e
  | .ok none => .error "nil pointer dereference on existing root node key"
  | .ok (some existingNodeKey) =>
    if existingNodeKey.version ≠ 0 then
      match t.ndb.getNodeF existingNodeKey with
      | .error e => .error e
      | .ok n => .ok (existingNodeKey, some n)
    else .ok (existingNodeKey, none)

/-- `MutableTree.SaveVersion` (`mutable_tree.go`).  If the target version
already exists: adopt the existing root when it matches the working tree
(both null, or existing hash equal to the working hash) and return the
working hash, else fail; no nodes are persisted on this path.  Otherwise
save the new nodes (when the root is non-null), stage the fast-index
deltas (unless skipped), commit, publish the new version, clone the
working tree into `lastSaved`, clear orphans and fast-index deltas, and
return the hash of the now-last-saved tree. -/
def MutableTree.SaveVersion (t : MutableTree) :
    Except String (Bytes × Int) × MutableTree :=
  let version := t.targetVersion
  let res := t.VersionExists version
  let t := res.2
  if res.1 then
    match t.loadExistingRoot version with
    | .error e => (.error e, t)
    | .ok (_, existingRoot) =>
      match t.WorkingHash with
      | .error e => (.error e, t)
      | .ok newHash =>
        if (existingRoot.isNone && t.itree.root.isNone) ||
            (match existingRoot with
              | some er => decide ((er.hash.getD []) = newHash)
              | none => false) then
          let it : ITree := { t.itree with version := version, root := existingRoot }
          (.ok (newHash, version),
            { t with itree := it.clone, lastSaved := it.clone, orphans := [] })
        else
          (.error "version was already saved to different hash", t)
  else
    match (match t.itree.root with
      | none => Except.ok t
      | some _ => t.saveNewNodes : Except String MutableTree) with
    | .error e => (.error e, t)
    | .ok t1 =>
      let t2 := if !t1.skipFastStorageUpgrade then t1.saveFastNodeVersion version else t1
      match t2.ndb.commitErr with
      | some e => (.error e, t2)
      | none =>
        let it : ITree := { t2.itree with version := version }
        let t3 := { t2 with
          itree := it.clone
          lastSaved := it.clone
          versions := (version, true) :: t2.versions.filter (fun p => p.1 ≠ version)
          orphans := []
          unsavedFastNodeAdditions :=
            if !t2.skipFastStorageUpgrade then [] else t2.unsavedFastNodeAdditions
          unsavedFastNodeRemovals :=
            if !t2.skipFastStorageUpgrade then [] else t2.unsavedFastNodeRemovals }
        match t3.Hash with
        | .error e => (.error e, t3)
        | .ok hash => (.ok (hash, version), t3)

/-!
## Rollback (C7) and GetVersioned (C8)
-/

/-- **C7.** `Rollback` never fails (it is a total function of the state).
Afterwards `WorkingHash` equals `Hash` — the hash of the last saved
version — the orphans list is empty and both unsaved fast-index maps are
empty; if no version has ever been saved (`version ≤ 0`) the working tree
becomes an empty tree at version 0 bound to the same NodeDB.  The two
hypotheses are invariants of reachable states: before any save
`lastSaved` is the empty head, and with fast storage skipped the unsaved
maps are never populated. -/
theorem Rollback_resets (t : MutableTree)
    (h0 : t.itree.version ≤ 0 → t.lastSaved.root = none)
    (h1 : t.skipFastStorageUpgrade = true →
      t.unsavedFastNodeAdditions = [] ∧ t.unsavedFastNodeRemovals = []) :
    t.Rollback.WorkingHash = t.Rollback.Hash ∧
    t.Rollback.orphans = [] ∧
    t.Rollback.unsavedFastNodeAdditions = [] ∧
    t.Rollback.unsavedFastNodeRemovals = [] ∧
    (t.itree.version ≤ 0 →
      t.Rollback.itree.root = none ∧ t.Rollback.itree.version = 0 ∧
      t.Rollback.itree.ndbId = t.ndb.ndbId) := by
  have hmaps : t.Rollback.unsavedFastNodeAdditions = [] ∧
      t.Rollback.unsavedFastNodeRemovals = [] := by
    cases hskip : t.skipFastStorageUpgrade with
    | false => simp [MutableTree.Rollback, hskip]
    | true =>
      obtain ⟨ha, hr⟩ := h1 hskip
      simp [MutableTree.Rollback, hskip, ha, hr]
  refine ⟨?_, ?_, hmaps.1, hmaps.2, ?_⟩
  · by_cases hv : t.itree.version > 0
    · simp [MutableTree.Rollback, MutableTree.WorkingHash, MutableTree.Hash,
        ITree.clone, if_pos hv]
    · simp only [MutableTree.Rollback, MutableTree.WorkingHash, MutableTree.Hash,
        ITree.clone, if_neg hv]
      rw [show ITreeHash (ITree.mk none 0 t.ndb.ndbId t.skipFastStorageUpgrade)
        = .ok [] from rfl]
      rw [show ITreeHash t.lastSaved
        = match t.lastSaved.root with
          | none => .ok []
          | some r =>
            match r.hashRec (t.lastSaved.version + 1) with
            | .error e => .error e
            | .ok (_, h) => .ok h from rfl]
      rw [h0 (by omega)]
  · simp [MutableTree.Rollback]
  · intro hv
    have : ¬ t.itree.version > 0 := by omega
    simp [MutableTree.Rollback, if_neg this]

/-- Witness for `Rollback_resets`: a never-saved tree with a pending
working root and pending fast-index deltas. -/
theorem Rollback_resets_witness :
    ((MutableTree.mk
        (ITree.mk (some (.mk [1] [10] 0 1 none none none none none none)) 0 7 false)
        (ITree.mk none 0 7 false) [⟨1, 1⟩] [] false
        [([1], FastNode.mk [1] [10] 1)] [[2]]
        (NodeDB.mk 7 (fun _ => .ok none) (fun _ => .error "not found")
          (fun _ => false) (fun _ => .ok none) (.ok false) 0 0 none [] [] [] 0)
        false).Rollback.WorkingHash
      = (MutableTree.mk
        (ITree.mk (some (.mk [1] [10] 0 1 none none none none none none)) 0 7 false)
        (ITree.mk none 0 7 false) [⟨1, 1⟩] [] false
        [([1], FastNode.mk [1] [10] 1)] [[2]]
        (NodeDB.mk 7 (fun _ => .ok none) (fun _ => .error "not found")
          (fun _ => false) (fun _ => .ok none) (.ok false) 0 0 none [] [] [] 0)
        false).Rollback.Hash) ∧
    (MutableTree.mk
        (ITree.mk (some (.mk [1] [10] 0 1 none none none none none none)) 0 7 false)
        (ITree.mk none 0 7 false) [⟨1, 1⟩] [] false
        [([1], FastNode.mk [1] [10] 1)] [[2]]
        (NodeDB.mk 7 (fun _ => .ok none) (fun _ => .error "not found")
          (fun _ => false) (fun _ => .ok none) (.ok false) 0 0 none [] [] [] 0)
        false).Rollback.orphans = [] ∧
    (MutableTree.mk
        (ITree.mk (some (.mk [1] [10] 0 1 none none none none none none)) 0 7 false)
        (ITree.mk none 0 7 false) [⟨1, 1⟩] [] false
        [([1], FastNode.mk [1] [10] 1)] [[2]]
        (NodeDB.mk 7 (fun _ => .ok none) (fun _ => .error "not found")
          (fun _ => false) (fun _ => .ok none) (.ok false) 0 0 none [] [] [] 0)
        false).Rollback.unsavedFastNodeAdditions = [] := by
  have h := Rollback_resets
    (MutableTree.mk
      (ITree.mk (some (.mk [1] [10] 0 1 none none none none none none)) 0 7 false)
      (ITree.mk none 0 7 false) [⟨1, 1⟩] [] false
      [([1], FastNode.mk [1] [10] 1)] [[2]]
      (NodeDB.mk 7 (fun _ => .ok none) (fun _ => .error "not found")
        (fun _ => false) (fun _ => .ok none) (.ok false) 0 0 none [] [] [] 0)
      false)
    (fun _ => rfl) (fun hx => by cases hx)
  exact ⟨h.1, h.2.1, h.2.2.1⟩

/-- **C8.** `GetVersioned` answers `(null, no error)` both when the
requested version does not exist and when, after the fast-cache step falls
through, loading the immutable snapshot fails — backing-store lookup
failures during the snapshot load are reported as absent rather than
propagated. -/
theorem GetVersioned_absent :
    (∀ (t : MutableTree) (key : Bytes) (version : Int),
      (t.VersionExists version).1 = false →
      t.GetVersioned key version = (.ok none, (t.VersionExists version).2)) ∧
    (∀ (t : MutableTree) (key : Bytes) (version : Int) (e : String),
      (t.VersionExists version).1 = true →
      ((t.VersionExists version).2).fastTry key version = .ok none →
      (((t.VersionExists version).2).GetImmutable version).1 = .error e →
      t.GetVersioned key version
        = (.ok none, (((t.VersionExists version).2).GetImmutable version).2)) := by
  constructor
  · intro t key version hex
    simp only [MutableTree.GetVersioned, hex, Bool.false_eq_true, if_false]
  · intro t key version e hex hfast hload
    rcases hp : ((t.VersionExists version).2).GetImmutable version with ⟨r1, t2⟩
    rw [hp] at hload
    simp only at hload
    subst hload
    simp only [MutableTree.GetVersioned, hex, if_true, hfast, hp]

/-- Witness for `GetVersioned_absent`: a backing store that knows only
version 1 and whose root lookups fail with an I/O error; version 2 is
absent, and loading version 1 fails but is reported as absent. -/
theorem GetVersioned_absent_witness :
    (((MutableTree.mk (ITree.mk none 1 7 true) (ITree.mk none 1 7 true) [] [] false
        [] []
        (NodeDB.mk 7 (fun _ => .error "io error") (fun _ => .error "io error")
          (fun v => v == 1) (fun _ => .ok none) (.ok false) 1 0 none [] [] [] 0)
        true).VersionExists 2).1 = false ∧
      (MutableTree.mk (ITree.mk none 1 7 true) (ITree.mk none 1 7 true) [] [] false
        [] []
        (NodeDB.mk 7 (fun _ => .error "io error") (fun _ => .error "io error")
          (fun v => v == 1) (fun _ => .ok none) (.ok false) 1 0 none [] [] [] 0)
        true).GetVersioned [9] 2
        = (.ok none,
          ((MutableTree.mk (ITree.mk none 1 7 true) (ITree.mk none 1 7 true) [] [] false
            [] []
            (NodeDB.mk 7 (fun _ => .error "io error") (fun _ => .error "io error")
              (fun v => v == 1) (fun _ => .ok none) (.ok false) 1 0 none [] [] [] 0)
            true).VersionExists 2).2)) ∧
    (((MutableTree.mk (ITree.mk none 1 7 true) (ITree.mk none 1 7 true) [] [] false
        [] []
        (NodeDB.mk 7 (fun _ => .error "io error") (fun _ => .error "io error")
          (fun v => v == 1) (fun _ => .ok none) (.ok false) 1 0 none [] [] [] 0)
        true).VersionExists 1).1 = true ∧
      (MutableTree.mk (ITree.mk none 1 7 true) (ITree.mk none 1 7 true) [] [] false
        [] []
        (NodeDB.mk 7 (fun _ => .error "io error") (fun _ => .error "io error")
          (fun v => v == 1) (fun _ => .ok none) (.ok false) 1 0 none [] [] [] 0)
        true).GetVersioned [9] 1
        = (.ok none,
          (((MutableTree.mk (ITree.mk none 1 7 true) (ITree.mk none 1 7 true) [] [] false
            [] []
            (NodeDB.mk 7 (fun _ => .error "io error") (fun _ => .error "io error")
              (fun v => v == 1) (fun _ => .ok none) (.ok false) 1 0 none [] [] [] 0)
            true).VersionExists 1).2.GetImmutable 1).2)) :=
  ⟨⟨rfl, GetVersioned_absent.1 _ [9] 2 rfl⟩,
    ⟨rfl, GetVersioned_absent.2 _ [9] 1 "io error" rfl rfl rfl⟩⟩

/-!
## Identity assignment and persistence (C4)
-/

/-- Number of in-memory nodes of a subtree; an induction measure. -/
def SNode.sz : SNode → Nat
  | .mk _ _ _ _ _ _ _ _ l r =>
    1 + (match l with | some lc => lc.sz | none => 0)
      + (match r with | some rc => rc.sz | none => 0)

theorem SNode.sz_pos (n : SNode) : 1 ≤ n.sz := by
  cases n with
  | mk k v ht s h0 nko lnk rnk l r =>
    cases l <;> cases r <;> (simp only [SNode.sz]; omega)

/-- Every node of the in-memory subtree carries a NodeKey of version at
most `version`. -/
def allKeysLE (version : Int) : SNode → Bool
  | .mk _ _ _ _ _ nko _ _ l r =>
    (match nko with
      | some nk => decide (nk.version ≤ version)
      | none => false) &&
    (match l with
      | some lc => allKeysLE version lc
      | none => true) &&
    (match r with
      | some rc => allKeysLE version rc
      | none => true)

/-- `_hash` only fills hash fields: the identity and child-key fields of
the returned node are those of the argument, and its hash is the returned
digest. -/
theorem hashRec_fields (version : Int) (n n' : SNode) (dig : Bytes)
    (heq : n.hashRec version = .ok (n', dig)) :
    n'.nodeKey = n.nodeKey ∧ n'.leftNodeKey = n.leftNodeKey ∧
    n'.rightNodeKey = n.rightNodeKey ∧ n'.hash = some dig ∧
    n'.subtreeHeight = n.subtreeHeight ∧ n'.size = n.size := by
  cases n with
  | mk k v ht s h0 nko lnk rnk l r =>
    cases h0 with
    | some hc =>
      simp only [SNode.hashRec, Except.ok.injEq, Prod.mk.injEq] at heq
      obtain ⟨h1, h2⟩ := heq
      subst h1
      subst h2
      exact ⟨rfl, rfl, rfl, rfl, rfl, rfl⟩
    | none =>
      cases l with
      | none =>
        cases r with
        | none =>
          simp only [SNode.hashRec] at heq
          split at heq
          · simp only [Except.ok.injEq, Prod.mk.injEq] at heq
            obtain ⟨h1, h2⟩ := heq
            subst h1
            subst h2
            exact ⟨rfl, rfl, rfl, rfl, rfl, rfl⟩
          · exact absurd heq (by simp)
        | some rc =>
          simp only [SNode.hashRec] at heq
          split at heq
          · simp only [Except.ok.injEq, Prod.mk.injEq] at heq
            obtain ⟨h1, h2⟩ := heq
            subst h1
            subst h2
            exact ⟨rfl, rfl, rfl, rfl, rfl, rfl⟩
          · exact absurd heq (by simp)
      | some lc =>
        cases r with
        | none =>
          simp only [SNode.hashRec] at heq
          split at heq
          · simp only [Except.ok.injEq, Prod.mk.injEq] at heq
            obtain ⟨h1, h2⟩ := heq
            subst h1
            subst h2
            exact ⟨rfl, rfl, rfl, rfl, rfl, rfl⟩
          · exact absurd heq (by simp)
        | some rc =>
          simp only [SNode.hashRec] at heq
          split at heq
          · simp only [Except.ok.injEq, Prod.mk.injEq] at heq
            obtain ⟨h1, h2⟩ := heq
            subst h1
            subst h2
            exact ⟨rfl, rfl, rfl, rfl, rfl, rfl⟩
          · split at heq
            · exact absurd heq (by simp)
            · split at heq
              · exact absurd heq (by simp)
              · simp only [Except.ok.injEq, Prod.mk.injEq] at heq
                obtain ⟨h1, h2⟩ := heq
                subst h1
                subst h2
                exact ⟨rfl, rfl, rfl, rfl, rfl, rfl⟩

/-- The persistence pass, on a tree whose NodeKeys are all assigned and at
most `version`: it succeeds, every staged node has NodeKey version exactly
`version`, subtrees persisted before this version are skipped unchanged,
and a written node loses both in-memory child pointers. -/
theorem recursiveSave_sound (version : Int) :
    ∀ (N : Nat) (n : SNode), n.sz ≤ N → allKeysLE version n = true →
    ∃ saved n', recursiveSave version n = .ok (saved, n') ∧
      (∀ m ∈ saved, ∃ nk, m.nodeKey = some nk ∧ nk.version = version) ∧
      (∀ nk, n.nodeKey = some nk →
        (nk.version < version → saved = [] ∧ n' = n) ∧
        (¬ nk.version < version →
          ∃ rest, saved = n :: rest ∧ n'.leftNode = none ∧ n'.rightNode = none)) := by
  intro N
  induction N with
  | zero =>
    intro n hle
    exact absurd hle (by have := n.sz_pos; omega)
  | succ N ih =>
    intro n hle hk
    cases n with
    | mk k v ht s h0 nko lnk rnk l r =>
      cases nko with
      | none =>
        exfalso
        cases l <;> cases r <;> simp [allKeysLE] at hk
      | some nk0 =>
        have hnkacc : (SNode.mk k v ht s h0 (some nk0) lnk rnk l r).nodeKey = some nk0 := rfl
        cases l with
        | none =>
          cases r with
          | none =>
            simp only [allKeysLE, Bool.and_eq_true, decide_eq_true_eq, and_true] at hk
            by_cases hv : nk0.version < version
            · refine ⟨[], .mk k v ht s h0 (some nk0) lnk rnk none none, ?_, ?_, ?_⟩
              · simp only [recursiveSave, if_pos hv]
              · intro m hm
                cases hm
              · intro nk hnk
                rw [hnkacc, Option.some_inj] at hnk
                subst hnk
                exact ⟨fun _ => ⟨rfl, rfl⟩, fun hcon => absurd hv hcon⟩
            · refine ⟨[.mk k v ht s h0 (some nk0) lnk rnk none none],
                .mk k v ht s h0 (some nk0) lnk rnk none none, ?_, ?_, ?_⟩
              · simp only [recursiveSave, if_neg hv]
              · intro m hm
                simp only [List.mem_singleton] at hm
                subst hm
                exact ⟨nk0, rfl, by omega⟩
              · intro nk hnk
                rw [hnkacc, Option.some_inj] at hnk
                subst hnk
                exact ⟨fun hcon => absurd hcon hv, fun _ => ⟨[], rfl, rfl, rfl⟩⟩
          | some rc =>
            simp only [allKeysLE, Bool.and_eq_true, decide_eq_true_eq, and_true] at hk
            obtain ⟨hk0, hkr⟩ := hk
            by_cases hv : nk0.version < version
            · refine ⟨[], .mk k v ht s h0 (some nk0) lnk rnk none (some rc), ?_, ?_, ?_⟩
              · simp only [recursiveSave, if_pos hv]
              · intro m hm
                cases hm
              · intro nk hnk
                rw [hnkacc, Option.some_inj] at hnk
                subst hnk
                exact ⟨fun _ => ⟨rfl, rfl⟩, fun hcon => absurd hv hcon⟩
            · have hsz : rc.sz ≤ N := by
                simp only [SNode.sz] at hle
                omega
              obtain ⟨rsaved, rc', hreq, hrmem, _⟩ := ih rc hsz hkr
              refine ⟨.mk k v ht s h0 (some nk0) lnk rnk none (some rc) :: rsaved,
                .mk k v ht s h0 (some nk0) lnk rnk none none, ?_, ?_, ?_⟩
              · simp only [recursiveSave, if_neg hv, hreq]
              · intro m hm
                rcases List.mem_cons.mp hm with hm | hm
                · subst hm
                  exact ⟨nk0, rfl, by omega⟩
                · exact hrmem m hm
              · intro nk hnk
                rw [hnkacc, Option.some_inj] at hnk
                subst hnk
                exact ⟨fun hcon => absurd hcon hv, fun _ => ⟨rsaved, rfl, rfl, rfl⟩⟩
        | some lc =>
          cases r with
          | none =>
            simp only [allKeysLE, Bool.and_eq_true, decide_eq_true_eq, and_true] at hk
            obtain ⟨hk0, hkl⟩ := hk
            by_cases hv : nk0.version < version
            · refine ⟨[], .mk k v ht s h0 (some nk0) lnk rnk (some lc) none, ?_, ?_, ?_⟩
              · simp only [recursiveSave, if_pos hv]
              · intro m hm
                cases hm
              · intro nk hnk
                rw [hnkacc, Option.some_inj] at hnk
                subst hnk
                exact ⟨fun _ => ⟨rfl, rfl⟩, fun hcon => absurd hv hcon⟩
            · have hsz : lc.sz ≤ N := by
                simp only [SNode.sz] at hle
                omega
              obtain ⟨lsaved, lc', hleq, hlmem, _⟩ := ih lc hsz hkl
              refine ⟨.mk k v ht s h0 (some nk0) lnk rnk (some lc) none :: lsaved,
                .mk k v ht s h0 (some nk0) lnk rnk none none, ?_, ?_, ?_⟩
              · simp only [recursiveSave, if_neg hv, hleq]
              · intro m hm
                rcases List.mem_cons.mp hm with hm | hm
                · subst hm
                  exact ⟨nk0, rfl, by omega⟩
                · exact hlmem m hm
              · intro nk hnk
                rw [hnkacc, Option.some_inj] at hnk
                subst hnk
                exact ⟨fun hcon => absurd hcon hv, fun _ => ⟨lsaved, rfl, rfl, rfl⟩⟩
          | some rc =>
            simp only [allKeysLE, Bool.and_eq_true, decide_eq_true_eq, and_true] at hk
            obtain ⟨⟨hk0, hkl⟩, hkr⟩ := hk
            by_cases hv : nk0.version < version
            · refine ⟨[], .mk k v ht s h0 (some nk0) lnk rnk (some lc) (some rc), ?_, ?_, ?_⟩
              · simp only [recursiveSave, if_pos hv]
              · intro m hm
                cases hm
              · intro nk hnk
                rw [hnkacc, Option.some_inj] at hnk
                subst hnk
                exact ⟨fun _ => ⟨rfl, rfl⟩, fun hcon => absurd hv hcon⟩
            · have hszl : lc.sz ≤ N := by
                simp only [SNode.sz] at hle
                omega
              have hszr : rc.sz ≤ N := by
                simp only [SNode.sz] at hle
                omega
              obtain ⟨lsaved, lc', hleq, hlmem, _⟩ := ih lc hszl hkl
              obtain ⟨rsaved, rc', hreq, hrmem, _⟩ := ih rc hszr hkr
              refine ⟨.mk k v ht s h0 (some nk0) lnk rnk (some lc) (some rc)
                  :: (lsaved ++ rsaved),
                .mk k v ht s h0 (some nk0) lnk rnk none none, ?_, ?_, ?_⟩
              · simp only [recursiveSave, if_neg hv, hleq, hreq]
              · intro m hm
                rcases List.mem_cons.mp hm with hm | hm
                · subst hm
                  exact ⟨nk0, rfl, by omega⟩
                · rcases List.mem_append.mp hm with hm | hm
                  · exact hlmem m hm
                  · exact hrmem m hm
              · intro nk hnk
                rw [hnkacc, Option.some_inj] at hnk
                subst hnk
                exact ⟨fun hcon => absurd hcon hv, fun _ => ⟨lsaved ++ rsaved, rfl, rfl, rfl⟩⟩

/-- A node that already carries a NodeKey is returned by the assignment
pass unchanged, together with that key. -/
theorem recursiveAssignKey_persisted (version : Int) (n : SNode) (nk : NodeKey)
    (path : Nat) (h : n.nodeKey = some nk) :
    recursiveAssignKey version n path = .ok (n, nk) := by
  cases n with
  | mk k v ht s h0 nko lnk rnk l r =>
    cases nko with
    | none => exact Option.noConfusion h
    | some nk0 =>
      have hh : nk0 = nk := Option.some_inj.mp h
      subst hh
      cases l <;> cases r <;> simp only [recursiveAssignKey]

instance {ε α : Type} [DecidableEq ε] [DecidableEq α] : DecidableEq (Except ε α)
  | .ok a, .ok b =>
    if h : a = b then isTrue (by rw [h]) else isFalse (by simp [h])
  | .error a, .error b =>
    if h : a = b then isTrue (by rw [h]) else isFalse (by simp [h])
  | .ok _, .error _ => isFalse (by simp)
  | .error _, .ok _ => isFalse (by simp)

/-- **C4.** `saveNewNodes` assigns identities in one recursive pass from
the root: a node that already has a NodeKey is left unchanged; a transient
node receives `(new version, path)` with the left child visited at
`path << 1` and the right child at `(path << 1) | 1`; a child-key pointer
is materialized exactly when the child's assigned NodeKey version is less
than the new version (stated for child-key fields that start out nil, as
freshly created working nodes have); then only nodes whose assigned
version equals the new version are written to the NodeDB, and a written
node has both in-memory child pointers set to nil afterwards. -/
theorem saveNewNodes_assignment (version : Int) :
    (∀ (n : SNode) (nk : NodeKey) (path : Nat), n.nodeKey = some nk →
      recursiveAssignKey version n path = .ok (n, nk)) ∧
    (∀ (k val : Bytes) (ht sz : Int) (hsh : Option Bytes) (lnk rnk : Option NodeKey)
      (lc rc lc' rc' n' : SNode) (lk rk : NodeKey) (path : Nat) (dig : Bytes),
      recursiveAssignKey version lc (2 * path) = .ok (lc', lk) →
      recursiveAssignKey version rc (2 * path + 1) = .ok (rc', rk) →
      SNode.hashRec version (.mk k val ht sz hsh (some ⟨version, path⟩)
          (if lk.version < version then some lk else lnk)
          (if rk.version < version then some rk else rnk)
          (some lc') (some rc')) = .ok (n', dig) →
      recursiveAssignKey version
          (.mk k val ht sz hsh none lnk rnk (some lc) (some rc)) path
        = .ok (n', ⟨version, path⟩) ∧
      n'.nodeKey = some ⟨version, path⟩ ∧
      (lnk = none → (n'.leftNodeKey ≠ none ↔ lk.version < version)) ∧
      (rnk = none → (n'.rightNodeKey ≠ none ↔ rk.version < version))) ∧
    (∀ n : SNode, allKeysLE version n = true →
      ∃ saved n', recursiveSave version n = .ok (saved, n') ∧
        (∀ m ∈ saved, ∃ nk, m.nodeKey = some nk ∧ nk.version = version) ∧
        (∀ nk, n.nodeKey = some nk →
          (nk.version < version → saved = [] ∧ n' = n) ∧
          (¬ nk.version < version →
            ∃ rest, saved = n :: rest ∧ n'.leftNode = none ∧ n'.rightNode = none))) := by
  refine ⟨?_, ?_, ?_⟩
  · intro n nk path h
    exact recursiveAssignKey_persisted version n nk path h
  · intro k val ht sz hsh lnk rnk lc rc lc' rc' n' lk rk path dig h1 h2 h3
    have hmain : recursiveAssignKey version
        (.mk k val ht sz hsh none lnk rnk (some lc) (some rc)) path
        = .ok (n', ⟨version, path⟩) := by
      simp only [recursiveAssignKey, h1, h2, h3]
    obtain ⟨hnk, hlnk, hrnk, _, _, _⟩ :=
      hashRec_fields version _ n' dig h3
    refine ⟨hmain, ?_, ?_, ?_⟩
    · rw [hnk]
      rfl
    · intro hl
      subst hl
      rw [hlnk]
      by_cases hc : lk.version < version
      · simp [SNode.leftNodeKey, hc]
      · simp [SNode.leftNodeKey, hc]
    · intro hr
      subst hr
      rw [hrnk]
      by_cases hc : rk.version < version
      · simp [SNode.rightNodeKey, hc]
      · simp [SNode.rightNodeKey, hc]
  · intro n hk
    exact recursiveSave_sound version n.sz n le_rfl hk

/-- Witness for `saveNewNodes_assignment` at version 2: an unchanged
persisted node; a transient root over two persisted leaves, getting
NodeKey `(2, 1)` with both child keys materialized; and the persistence
pass over a mixed tree. -/
theorem saveNewNodes_assignment_witness :
    ((SNode.mk [1] [2] 0 1 (some [9]) (some ⟨1, 5⟩) none none none none).nodeKey
        = some ⟨1, 5⟩ ∧
      recursiveAssignKey 2 (.mk [1] [2] 0 1 (some [9]) (some ⟨1, 5⟩) none none none none) 1
        = .ok (.mk [1] [2] 0 1 (some [9]) (some ⟨1, 5⟩) none none none none, ⟨1, 5⟩)) ∧
    (recursiveAssignKey 2
        (.mk [1] [10] 0 1 (some [7]) (some ⟨1, 2⟩) none none none none) (2 * 1)
        = .ok (.mk [1] [10] 0 1 (some [7]) (some ⟨1, 2⟩) none none none none, ⟨1, 2⟩) ∧
      recursiveAssignKey 2
        (.mk [2] [20] 0 1 (some [8]) (some ⟨1, 3⟩) none none none none) (2 * 1 + 1)
        = .ok (.mk [2] [20] 0 1 (some [8]) (some ⟨1, 3⟩) none none none none, ⟨1, 3⟩) ∧
      recursiveAssignKey 2
        (.mk [2] [] 1 2 none none none none
          (some (.mk [1] [10] 0 1 (some [7]) (some ⟨1, 2⟩) none none none none))
          (some (.mk [2] [20] 0 1 (some [8]) (some ⟨1, 3⟩) none none none none))) 1
        = .ok (.mk [2] [] 1 2 (some (innerDigest 2 1 2 [7] [8])) (some ⟨2, 1⟩)
            (some ⟨1, 2⟩) (some ⟨1, 3⟩)
            (some (.mk [1] [10] 0 1 (some [7]) (some ⟨1, 2⟩) none none none none))
            (some (.mk [2] [20] 0 1 (some [8]) (some ⟨1, 3⟩) none none none none)),
          ⟨2, 1⟩)) ∧
    (allKeysLE 2
        (.mk [2] [] 1 2 (some [1]) (some ⟨2, 1⟩) (some ⟨1, 2⟩) none
          (some (.mk [1] [10] 0 1 (some [7]) (some ⟨1, 2⟩) none none none none))
          (some (.mk [2] [20] 0 1 (some [8]) (some ⟨2, 3⟩) none none none none))) = true ∧
      ∃ saved n', recursiveSave 2
          (.mk [2] [] 1 2 (some [1]) (some ⟨2, 1⟩) (some ⟨1, 2⟩) none
            (some (.mk [1] [10] 0 1 (some [7]) (some ⟨1, 2⟩) none none none none))
            (some (.mk [2] [20] 0 1 (some [8]) (some ⟨2, 3⟩) none none none none)))
          = .ok (saved, n') ∧
        (∀ m ∈ saved, ∃ nk, m.nodeKey = some nk ∧ nk.version = 2) ∧
        (∀ nk, (SNode.mk [2] [] 1 2 (some [1]) (some ⟨2, 1⟩) (some ⟨1, 2⟩) none
            (some (.mk [1] [10] 0 1 (some [7]) (some ⟨1, 2⟩) none none none none))
            (some (.mk [2] [20] 0 1 (some [8]) (some ⟨2, 3⟩) none none none
              none))).nodeKey = some nk →
          (nk.version < 2 → saved = [] ∧
            n' = .mk [2] [] 1 2 (some [1]) (some ⟨2, 1⟩) (some ⟨1, 2⟩) none
              (some (.mk [1] [10] 0 1 (some [7]) (some ⟨1, 2⟩) none none none none))
              (some (.mk [2] [20] 0 1 (some [8]) (some ⟨2, 3⟩) none none none none))) ∧
          (¬ nk.version < 2 →
            ∃ rest, saved = (.mk [2] [] 1 2 (some [1]) (some ⟨2, 1⟩) (some ⟨1, 2⟩) none
              (some (.mk [1] [10] 0 1 (some [7]) (some ⟨1, 2⟩) none none none none))
              (some (.mk [2] [20] 0 1 (some [8]) (some ⟨2, 3⟩) none none none none)))
                :: rest ∧
              n'.leftNode = none ∧ n'.rightNode = none))) :=
  ⟨⟨rfl, (saveNewNodes_assignment 2).1 _ ⟨1, 5⟩ 1 rfl⟩,
    ⟨by decide, by decide,
      ((saveNewNodes_assignment 2).2.1 [2] [] 1 2 none none none
        (.mk [1] [10] 0 1 (some [7]) (some ⟨1, 2⟩) none none none none)
        (.mk [2] [20] 0 1 (some [8]) (some ⟨1, 3⟩) none none none none)
        (.mk [1] [10] 0 1 (some [7]) (some ⟨1, 2⟩) none none none none)
        (.mk [2] [20] 0 1 (some [8]) (some ⟨1, 3⟩) none none none none)
        _ ⟨1, 2⟩ ⟨1, 3⟩ 1 (innerDigest 2 1 2 [7] [8])
        (by decide) (by decide) (by decide)).1⟩,
    ⟨by decide, (saveNewNodes_assignment 2).2.2 _ (by decide)⟩⟩

/-!
## Node pool (`pool.go`)

`pool.go` sees the `Node` struct with value-typed NodeKeys (reset to
`emptyNodeKey`), optional in-memory child pointers, a dirty flag and the
pool id.  The `sync.Pool` itself is abstract: the node it hands out is a
parameter of `Get`.
-/
inductive PoolNode where
  | mk (nodeKey leftNodeKey rightNodeKey : NodeKey)
      (leftNode rightNode : Option PoolNode)
      (hash key value : Bytes) (subtreeHeight size : Int)
      (dirty : Bool) (poolId : Nat)

def PoolNode.poolId : PoolNode → Nat
  | .mk _ _ _ _ _ _ _ _ _ _ _ pid => pid

/-- The zero `NodeKey`. -/
def emptyNodeKey : NodeKey := ⟨0, 0⟩

/-- `resetNode` (pool.go): zero every field — child keys, child pointers,
node key, hash, key, value, height, size, dirty — leaving `poolId` to the
caller. -/
def resetNode : PoolNode → PoolNode
  | .mk _ _ _ _ _ _ _ _ _ _ _ pid =>
    .mk emptyNodeKey emptyNodeKey emptyNodeKey none none [] [] [] 0 0 false pid

/-- `NodePool.Put` (pool.go): reset the node and clear its pool id before
handing it back to the sync pool. -/
def NodePool.Put (node : PoolNode) : PoolNode :=
  match resetNode node with
  | .mk a b c d e f g h i j k _ => .mk a b c d e f g h i j k 0

/-- `NodePool.Get` (pool.go): advance the pool counter — wrapping from
`2^64 − 1` back to 1, never producing 0 (uint64 arithmetic is written out
as `% 2^64`) — and stamp the node handed out by the sync pool with the new
counter.  Returns the new counter and the stamped node. -/
def NodePool.Get (poolId : Nat) (fromSyncPool : PoolNode) : Nat × PoolNode :=
  let newId := if poolId = 2 ^ 64 - 1 then 1 else (poolId + 1) % 2 ^ 64
  (newId,
    match fromSyncPool with
    | .mk a b c d e f g h i j k _ => .mk a b c d e f g h i j k newId)

/-- The fully zeroed node (every field at its zero value, pool id 0). -/
def zeroPoolNode : PoolNode :=
  .mk emptyNodeKey emptyNodeKey emptyNodeKey none none [] [] [] 0 0 false 0

/-- **C10.** For any pool counter representable in a uint64, `Get`
produces a pool id of at least 1: the counter increments, wrapping from
`2^64 − 1` back to 1 and never producing 0, and the returned node carries
the new counter; `Put` resets every field of the node to its zero value
and sets the pool id to 0. -/
theorem pool_get_put_ids :
    (∀ (poolId : Nat) (n : PoolNode), poolId < 2 ^ 64 →
      1 ≤ (NodePool.Get poolId n).1 ∧
      (NodePool.Get poolId n).1 < 2 ^ 64 ∧
      ((NodePool.Get poolId n).2).poolId = (NodePool.Get poolId n).1 ∧
      (poolId = 2 ^ 64 - 1 → (NodePool.Get poolId n).1 = 1) ∧
      (poolId ≠ 2 ^ 64 - 1 → (NodePool.Get poolId n).1 = poolId + 1)) ∧
    (∀ n : PoolNode, NodePool.Put n = zeroPoolNode) := by
  constructor
  · intro poolId n hlt
    by_cases hmax : poolId = 2 ^ 64 - 1
    · refine ⟨?_, ?_, ?_, ?_, ?_⟩
      · simp [NodePool.Get, hmax]
      · simp [NodePool.Get, hmax]
      · cases n with
        | mk a b c d e f g h i j k pid => simp [NodePool.Get, PoolNode.poolId]
      · intro _
        simp [NodePool.Get, hmax]
      · intro hc
        exact absurd hmax hc
    · have hmod : (poolId + 1) % 2 ^ 64 = poolId + 1 := Nat.mod_eq_of_lt (by omega)
      refine ⟨?_, ?_, ?_, ?_, ?_⟩
      · simp only [NodePool.Get]
        split <;> omega
      · simp only [NodePool.Get]
        split <;> omega
      · cases n with
        | mk a b c d e f g h i j k pid => simp [NodePool.Get, PoolNode.poolId]
      · intro hc
        exact absurd hc hmax
      · intro _
        simp only [NodePool.Get]
        split <;> omega
  · intro n
    cases n with
    | mk a b c d e f g h i j k pid => rfl

/-- Witness for `pool_get_put_ids`: the wrap from `2^64 − 1` to 1 and a
normal increment. -/
theorem pool_get_put_ids_witness :
    ((2 ^ 64 - 1 : Nat) < 2 ^ 64 ∧
      (NodePool.Get (2 ^ 64 - 1) zeroPoolNode).1 = 1) ∧
    ((5 : Nat) < 2 ^ 64 ∧ (NodePool.Get 5 zeroPoolNode).1 = 5 + 1) :=
  ⟨⟨by norm_num, (pool_get_put_ids.1 (2 ^ 64 - 1) zeroPoolNode (by norm_num)).2.2.2.1 rfl⟩,
    ⟨by norm_num, (pool_get_put_ids.1 5 zeroPoolNode (by norm_num)).2.2.2.2
      (by norm_num)⟩⟩

/-!
## SaveVersion idempotence (C2)
-/

/-- `VersionExists` changes nothing but the memoized versions map. -/
theorem VersionExists_state (t : MutableTree) (x : Int) :
    (t.VersionExists x).2.itree = t.itree ∧
    (t.VersionExists x).2.lastSaved = t.lastSaved ∧
    (t.VersionExists x).2.orphans = t.orphans ∧
    (t.VersionExists x).2.allRootLoaded = t.allRootLoaded ∧
    (t.VersionExists x).2.unsavedFastNodeAdditions = t.unsavedFastNodeAdditions ∧
    (t.VersionExists x).2.unsavedFastNodeRemovals = t.unsavedFastNodeRemovals ∧
    (t.VersionExists x).2.ndb = t.ndb ∧
    (t.VersionExists x).2.skipFastStorageUpgrade = t.skipFastStorageUpgrade := by
  unfold MutableTree.VersionExists
  split
  · exact ⟨rfl, rfl, rfl, rfl, rfl, rfl, rfl, rfl⟩
  · split
    · exact ⟨rfl, rfl, rfl, rfl, rfl, rfl, rfl, rfl⟩
    · exact ⟨rfl, rfl, rfl, rfl, rfl, rfl, rfl, rfl⟩

/-- `VersionExists` memoizes at most the queried version: lookups of any
other version are unchanged. -/
theorem VersionExists_lookup (t : MutableTree) (x y : Int) (h : y ≠ x) :
    (t.VersionExists x).2.versions.lookup y = t.versions.lookup y := by
  have hbe : (y == x) = false := by
    rw [beq_eq_false_iff_ne]
    exact h
  unfold MutableTree.VersionExists
  split
  · rfl
  · split
    · rfl
    · show (((x, t.ndb.hasVersionF x) :: t.versions).lookup y : Option Bool)
        = t.versions.lookup y
      simp [List.lookup, hbe]

/-- A version that is neither memoized nor known to the backing store does
not exist. -/
theorem VersionExists_false_of (t : MutableTree) (x : Int)
    (hl : t.versions.lookup x = none) (hv : t.ndb.hasVersionF x = false) :
    (t.VersionExists x).1 = false := by
  unfold MutableTree.VersionExists
  split
  · simp [hl]
  · simp [hl, hv]

/-- Filtering out one key's entries does not change lookups of another
key. -/
theorem lookup_filter_ne (x y : Int) (l : List (Int × Bool)) (h : y ≠ x) :
    (l.filter (fun p => p.1 ≠ x)).lookup y = l.lookup y := by
  induction l with
  | nil => rfl
  | cons a l ih =>
    cases a with
    | mk a1 a2 =>
      by_cases hax : a1 = x
      · subst hax
        have hy : (y == a1) = false := by
          rw [beq_eq_false_iff_ne]
          exact h
        rw [List.filter_cons, if_neg (by simp)]
        rw [ih]
        simp [List.lookup, hy]
      · have hkeep : (decide ((a1, a2).1 ≠ x)) = true := by simp [hax]
        simp only [List.filter_cons]
        rw [if_pos hkeep]
        simp only [List.lookup]
        rw [ih]

/-- Staging the fast-index deltas touches neither the trees, the
memoization, the node write log, nor `Commit`. -/
theorem saveFastNodeVersion_itree (t : MutableTree) (v : Int) :
    (t.saveFastNodeVersion v).itree = t.itree := rfl

/-- Fast-index staging preserves the versions map. -/
theorem saveFastNodeVersion_versions (t : MutableTree) (v : Int) :
    (t.saveFastNodeVersion v).versions = t.versions := rfl

/-- Fast-index staging appends no tree nodes to the write log. -/
theorem saveFastNodeVersion_savedNodes (t : MutableTree) (v : Int) :
    (t.saveFastNodeVersion v).ndb.savedNodes = t.ndb.savedNodes := rfl

/-- Fast-index staging does not influence `Commit`. -/
theorem saveFastNodeVersion_commitErr (t : MutableTree) (v : Int) :
    (t.saveFastNodeVersion v).ndb.commitErr = t.ndb.commitErr := rfl

/-- Fast-index staging does not influence `HasVersion`. -/
theorem saveFastNodeVersion_hasVersionF (t : MutableTree) (v : Int) :
    (t.saveFastNodeVersion v).ndb.hasVersionF = t.ndb.hasVersionF := rfl

/-- A cached hash is returned as is, leaving the node unchanged. -/
theorem hashRec_cached (version : Int) (n : SNode) (hh : Bytes)
    (h : n.hash = some hh) :
    n.hashRec version = .ok (n, hh) := by
  cases n with
  | mk k v ht s h0 nko lnk rnk l r =>
    cases h0 with
    | none => exact Option.noConfusion h
    | some hc =>
      have h2 : hc = hh := Option.some_inj.mp h
      subst h2
      simp only [SNode.hashRec]

/-- The hash of a null root is null (the empty byte string). -/
theorem ITreeHash_none (it : ITree) (h : it.root = none) :
    ITreeHash it = .ok [] := by
  unfold ITreeHash
  rw [h]

/-- The hash of a tree whose root hash is cached is that cached hash. -/
theorem ITreeHash_cached (it : ITree) (r : SNode) (hh : Bytes)
    (h : it.root = some r) (hc : r.hash = some hh) :
    ITreeHash it = .ok hh := by
  unfold ITreeHash
  simp only [h, hashRec_cached (it.version + 1) r hh hc]

/-- The save target always lies beyond the current version. -/
theorem targetVersion_ge (t : MutableTree) :
    t.itree.version + 1 ≤ t.targetVersion := by
  unfold MutableTree.targetVersion
  split
  · rename_i hcond
    omega
  · omega

/-- A subtree persisted before the save version is skipped unchanged by
the persistence pass. -/
theorem recursiveSave_skip (version : Int) (n : SNode) (nk : NodeKey)
    (hnk : n.nodeKey = some nk) (hlt : nk.version < version) :
    recursiveSave version n = .ok ([], n) := by
  cases n with
  | mk k v ht s h0 nko lnk rnk l r =>
    cases nko with
    | none => exact Option.noConfusion hnk
    | some nk0 =>
      have h : nk0 = nk := Option.some_inj.mp hnk
      subst h
      cases l <;> cases r <;> simp only [recursiveSave] <;> rw [if_pos hlt]

/-- The persistence pass preserves the root's NodeKey and cached hash. -/
theorem recursiveSave_root_fields (version : Int) (n : SNode)
    (saved : List SNode) (n2 : SNode)
    (h : recursiveSave version n = .ok (saved, n2)) :
    n2.nodeKey = n.nodeKey ∧ n2.hash = n.hash := by
  cases n with
  | mk k v ht s h0 nko lnk rnk l r =>
    cases nko with
    | none =>
      cases l <;> cases r <;> simp only [recursiveSave] at h <;>
        exact Except.noConfusion h
    | some nk0 =>
      cases l <;> cases r <;> simp only [recursiveSave] at h
      all_goals repeat' split at h
      all_goals
        first
          | exact Except.noConfusion h
          | (simp only [Except.ok.injEq, Prod.mk.injEq] at h
             obtain ⟨h1, h2⟩ := h
             subst h2
             exact ⟨rfl, rfl⟩)

/-- Identity assignment on a root without a NodeKey: the root is keyed
`(version, path)` and its hash is computed and cached. -/
theorem recursiveAssignKey_transient (version : Int) (n : SNode) (path : Nat)
    (n2 : SNode) (nk2 : NodeKey) (hnk : n.nodeKey = none)
    (h : recursiveAssignKey version n path = .ok (n2, nk2)) :
    nk2 = NodeKey.mk version path ∧
    n2.nodeKey = some (NodeKey.mk version path) ∧ ∃ hh, n2.hash = some hh := by
  cases n with
  | mk k v ht sz hsh nko lnk rnk l r =>
    cases nko with
    | some nk0 => exact Option.noConfusion hnk
    | none =>
      cases l <;> cases r <;> simp only [recursiveAssignKey] at h
      all_goals repeat' split at h
      all_goals try exact Except.noConfusion h
      all_goals
        (rename_i heq
         simp only [Except.ok.injEq, Prod.mk.injEq] at h
         obtain ⟨h1, h2⟩ := h
         subst h1
         subst h2
         have hf := hashRec_fields _ _ _ _ heq
         exact ⟨rfl, by simpa [SNode.nodeKey] using hf.1, ⟨_, hf.2.2.2.1⟩⟩)

/-- `SaveVersion` against a fresh target version, on a tree whose root is
null or already persisted below the next version with a cached hash:
it succeeds with that hash (a null root hashing to null) and appends
nothing to the node write log. -/
theorem SaveVersion_noop (u : MutableTree) (H : Bytes)
    (hfresh : (u.VersionExists u.targetVersion).1 = false)
    (hcommit : u.ndb.commitErr = none)
    (hroot : (u.itree.root = none ∧ H = []) ∨
      (∃ r nk hh, u.itree.root = some r ∧ r.nodeKey = some nk ∧
        nk.version < u.itree.version + 1 ∧ r.hash = some hh ∧ H = hh)) :
    (u.SaveVersion).1 = .ok (H, u.targetVersion) ∧
    (u.SaveVersion).2.ndb.savedNodes = u.ndb.savedNodes := by
  obtain ⟨hit, hls, hor, harl, hua, hur, hndb, hskip⟩ :=
    VersionExists_state u u.targetVersion
  simp only [MutableTree.SaveVersion, hfresh, Bool.false_eq_true, if_false]
  rcases hroot with ⟨hnone, hH⟩ | ⟨r, nk, hh, hsome, hnk, hlt, hhash, hH⟩
  · subst hH
    simp only [hit, hnone]
    cases hsk : u.skipFastStorageUpgrade with
    | false =>
      simp only [hskip, hsk, Bool.not_false, if_true,
        saveFastNodeVersion_commitErr, hndb, hcommit, MutableTree.Hash,
        ITree.clone, ITreeHash, saveFastNodeVersion_itree, hit, hnone,
        saveFastNodeVersion_savedNodes]
      exact ⟨trivial, trivial⟩
    | true =>
      simp only [hskip, hsk, Bool.not_true, Bool.false_eq_true, if_false,
        hndb, hcommit, MutableTree.Hash, ITree.clone, ITreeHash, hit, hnone]
      exact ⟨trivial, trivial⟩
  · subst hH
    have hassign := recursiveAssignKey_persisted (u.itree.version + 1) r nk 1 hnk
    have hskp := recursiveSave_skip (u.itree.version + 1) r nk hnk hlt
    have hcache := hashRec_cached (u.targetVersion + 1) r H hhash
    simp only [hit, hsome, MutableTree.saveNewNodes, hassign, hskp,
      List.append_nil]
    cases hsk : u.skipFastStorageUpgrade with
    | false =>
      simp only [hskip, hsk, Bool.not_false, if_true,
        saveFastNodeVersion_commitErr, hndb, hcommit, MutableTree.Hash,
        ITree.clone, ITreeHash, saveFastNodeVersion_itree, hit, hsome, hcache,
        saveFastNodeVersion_savedNodes]
      exact ⟨trivial, trivial⟩
    | true =>
      simp only [hskip, hsk, Bool.not_true, Bool.false_eq_true, if_false,
        hndb, hcommit, MutableTree.Hash, ITree.clone, ITreeHash, hit, hsome,
        hcache]
      exact ⟨trivial, trivial⟩

/-- **C2.** `SaveVersion` against an already existing target version: when
the existing root and the working root are both null, or the existing
root's recorded hash equals the working hash, the call succeeds with the
working hash, bumps the version to the target, adopts the existing root as
both working and last-saved tree, clears orphans, and persists no new
nodes; otherwise it fails with the version-already-saved error and leaves
the state (beyond `VersionExists` memoization) unchanged.  Consequently
`SaveVersion` called twice with no intervening mutation returns the same
hash both times and the second call appends nothing to the node write
log. -/
theorem SaveVersion_idempotent (t : MutableTree) :
    (∀ enk existingRoot newHash,
      (t.VersionExists t.targetVersion).1 = true →
      ((t.VersionExists t.targetVersion).2).loadExistingRoot t.targetVersion
        = .ok (enk, existingRoot) →
      ((t.VersionExists t.targetVersion).2).WorkingHash = .ok newHash →
      ((existingRoot.isNone &&
          ((t.VersionExists t.targetVersion).2).itree.root.isNone) ||
        (match existingRoot with
          | some er => decide ((er.hash.getD []) = newHash)
          | none => false)) = true →
      t.SaveVersion = (.ok (newHash, t.targetVersion),
        { (t.VersionExists t.targetVersion).2 with
          itree := { ((t.VersionExists t.targetVersion).2).itree with
            version := t.targetVersion, root := existingRoot }
          lastSaved := { ((t.VersionExists t.targetVersion).2).itree with
            version := t.targetVersion, root := existingRoot }
          orphans := [] }) ∧
      ((t.SaveVersion).2).ndb.savedNodes = t.ndb.savedNodes) ∧
    (∀ enk existingRoot newHash,
      (t.VersionExists t.targetVersion).1 = true →
      ((t.VersionExists t.targetVersion).2).loadExistingRoot t.targetVersion
        = .ok (enk, existingRoot) →
      ((t.VersionExists t.targetVersion).2).WorkingHash = .ok newHash →
      ((existingRoot.isNone &&
          ((t.VersionExists t.targetVersion).2).itree.root.isNone) ||
        (match existingRoot with
          | some er => decide ((er.hash.getD []) = newHash)
          | none => false)) = false →
      t.SaveVersion = (.error "version was already saved to different hash",
        (t.VersionExists t.targetVersion).2)) ∧
    (∀ h1 v1 t1,
      0 ≤ t.itree.version →
      t.ndb.commitErr = none →
      t.versions.lookup (t.targetVersion + 1) = none →
      t.ndb.hasVersionF (t.targetVersion + 1) = false →
      (∀ v nk, t.ndb.getRootF v = .ok (some nk) → nk.version ≤ v) →
      (∀ nk n, t.ndb.getNodeF nk = .ok n →
        n.nodeKey = some nk ∧ n.hash ≠ none) →
      (∀ r nk, t.itree.root = some r → r.nodeKey = some nk →
        nk.version ≤ t.itree.version ∧ r.hash ≠ none) →
      t.SaveVersion = (.ok (h1, v1), t1) →
      (t1.SaveVersion).1 = .ok (h1, v1 + 1) ∧
      (t1.SaveVersion).2.ndb.savedNodes = t1.ndb.savedNodes) := by
  obtain ⟨hit, hls, hor, harl, hua, hur, hndb, hskip⟩ :=
    VersionExists_state t t.targetVersion
  refine ⟨?_, ?_, ?_⟩
  · intro enk existingRoot newHash hex hload hwh hcond
    have hmain : t.SaveVersion = (.ok (newHash, t.targetVersion),
        { (t.VersionExists t.targetVersion).2 with
          itree := { ((t.VersionExists t.targetVersion).2).itree with
            version := t.targetVersion, root := existingRoot }
          lastSaved := { ((t.VersionExists t.targetVersion).2).itree with
            version := t.targetVersion, root := existingRoot }
          orphans := [] }) := by
      simp only [MutableTree.SaveVersion, hex, eq_self_iff_true, if_true,
        hload, hwh, hcond, ITree.clone]
    refine ⟨hmain, ?_⟩
    rw [hmain]
    exact congrArg NodeDB.savedNodes hndb
  · intro enk existingRoot newHash hex hload hwh hcond
    simp only [MutableTree.SaveVersion, hex, eq_self_iff_true, if_true,
      hload, hwh, hcond, Bool.false_eq_true, if_false]
  · intro h1 v1 t1 h0 hcommit hfresh1 hfresh2 hroots hnodes hwroot hsave1
    have htv := targetVersion_ge t
    have key : t1.itree.version = t.targetVersion ∧ v1 = t.targetVersion ∧
        t1.ndb.commitErr = none ∧
        t1.ndb.hasVersionF = t.ndb.hasVersionF ∧
        t1.versions.lookup (t.targetVersion + 1) = none ∧
        ((t1.itree.root = none ∧ h1 = []) ∨
          (∃ r nk hh, t1.itree.root = some r ∧ r.nodeKey = some nk ∧
            nk.version ≤ t.targetVersion ∧ r.hash = some hh ∧ h1 = hh)) := by
      simp only [MutableTree.SaveVersion] at hsave1
      split at hsave1
      · -- the target version already exists
        split at hsave1
        · exact absurd hsave1 (by simp)
        · rename_i enk existingRoot heqL
          split at hsave1
          · exact absurd hsave1 (by simp)
          · rename_i newHash heqW
            split at hsave1
            · rename_i hcond
              simp only [Prod.mk.injEq, Except.ok.injEq] at hsave1
              obtain ⟨⟨hh1, hv1⟩, ht1⟩ := hsave1
              subst ht1
              subst hv1
              subst hh1
              refine ⟨rfl, rfl, ?_, ?_, ?_, ?_⟩
              · show ((t.VersionExists t.targetVersion).2).ndb.commitErr = none
                rw [hndb]
                exact hcommit
              · show ((t.VersionExists t.targetVersion).2).ndb.hasVersionF
                  = t.ndb.hasVersionF
                rw [hndb]
              · show ((t.VersionExists t.targetVersion).2).versions.lookup
                  (t.targetVersion + 1) = none
                rw [VersionExists_lookup t _ _ (by omega)]
                exact hfresh1
              · rcases existingRoot with _ | er
                · refine Or.inl ⟨rfl, ?_⟩
                  have hrn : ((t.VersionExists t.targetVersion).2).itree.root
                      = none := by
                    simp only [Option.isNone_none, Bool.true_and,
                      Bool.or_false] at hcond
                    exact Option.isNone_iff_eq_none.mp hcond
                  have hwn : ((t.VersionExists t.targetVersion).2).WorkingHash
                      = .ok [] := ITreeHash_none _ hrn
                  rw [hwn] at heqW
                  injection heqW with heqW
                  exact heqW.symm
                · refine Or.inr ?_
                  unfold MutableTree.loadExistingRoot at heqL
                  split at heqL
                  · exact absurd heqL (by simp)
                  · exact absurd heqL (by simp)
                  · rename_i enk0 heqR
                    split at heqL
                    · split at heqL
                      · exact absurd heqL (by simp)
                      · rename_i n0 heqN
                        simp only [Except.ok.injEq, Prod.mk.injEq,
                          Option.some_inj] at heqL
                        obtain ⟨he1, he2⟩ := heqL
                        subst he1
                        subst he2
                        rw [hndb] at heqN heqR
                        obtain ⟨hnkr, hhne⟩ := hnodes enk0 n0 heqN
                        have hle := hroots t.targetVersion enk0 heqR
                        rcases hE : n0.hash with _ | hh
                        · exact absurd hE hhne
                        · refine ⟨n0, enk0, hh, rfl, hnkr, hle, hE, ?_⟩
                          simp only [Option.isNone_some, Bool.false_and,
                            Bool.false_or, decide_eq_true_eq] at hcond
                          rw [hE] at hcond
                          simpa using hcond.symm
                    · exact absurd heqL (by simp)
            · exact absurd hsave1 (by simp)
      · -- the target version is fresh: a real save ran
        split at hsave1
        · exact absurd hsave1 (by simp)
        · rename_i t1' heqS
          have hroot1 : t1'.itree.version = t.itree.version ∧
              t1'.versions.lookup (t.targetVersion + 1) = none ∧
              t1'.ndb.commitErr = none ∧
              t1'.ndb.hasVersionF = t.ndb.hasVersionF ∧
              (t1'.itree.root = none ∨
                ∃ r nk hh, t1'.itree.root = some r ∧ r.nodeKey = some nk ∧
                  nk.version ≤ t.targetVersion ∧ r.hash = some hh) := by
            split at heqS
            · rename_i hmr
              injection heqS with heqS
              subst heqS
              refine ⟨?_, ?_, ?_, ?_, Or.inl hmr⟩
              · rw [hit]
              · rw [VersionExists_lookup t _ _ (by omega)]
                exact hfresh1
              · rw [hndb]
                exact hcommit
              · rw [hndb]
            · rename_i x hmr
              simp only [MutableTree.saveNewNodes] at heqS
              rw [hit] at heqS
              split at heqS
              · exact absurd heqS (by simp)
              · rename_i root hmr2
                rcases hnkr : root.nodeKey with _ | nk
                · -- a transient root: assigned and hashed, then staged
                  split at heqS
                  · exact absurd heqS (by simp)
                  · rename_i root2 nk2 heqA
                    split at heqS
                    · exact absurd heqS (by simp)
                    · rename_i saved root3 heqR2
                      injection heqS with heqS
                      subst heqS
                      obtain ⟨hA1, hA2, hh2, hA3⟩ :=
                        recursiveAssignKey_transient _ root 1 root2 nk2 hnkr heqA
                      obtain ⟨hF1, hF2⟩ :=
                        recursiveSave_root_fields _ root2 saved root3 heqR2
                      refine ⟨rfl, ?_, ?_, ?_, Or.inr ⟨root3,
                        NodeKey.mk (t.itree.version + 1) 1, hh2, rfl, ?_, ?_, ?_⟩⟩
                      · show ((t.VersionExists t.targetVersion).2).versions.lookup
                          (t.targetVersion + 1) = none
                        rw [VersionExists_lookup t _ _ (by omega)]
                        exact hfresh1
                      · show ((t.VersionExists t.targetVersion).2).ndb.commitErr
                          = none
                        rw [hndb]
                        exact hcommit
                      · show ((t.VersionExists t.targetVersion).2).ndb.hasVersionF
                          = t.ndb.hasVersionF
                        rw [hndb]
                      · rw [hF1, hA2]
                      · show t.itree.version + 1 ≤ t.targetVersion
                        exact htv
                      · rw [hF2]
                        exact hA3
                · -- a root already persisted: everything is skipped
                  obtain ⟨hle0, hne0⟩ := hwroot root nk hmr2 hnkr
                  have hA := recursiveAssignKey_persisted
                    (t.itree.version + 1) root nk 1 hnkr
                  have hB := recursiveSave_skip
                    (t.itree.version + 1) root nk hnkr (by omega)
                  simp only [hA, hB, List.append_nil] at heqS
                  injection heqS with heqS
                  subst heqS
                  rcases hE : root.hash with _ | hh
                  · exact absurd hE hne0
                  · refine ⟨rfl, ?_, ?_, ?_,
                      Or.inr ⟨root, nk, hh, rfl, hnkr, by omega, hE⟩⟩
                    · show ((t.VersionExists t.targetVersion).2).versions.lookup
                        (t.targetVersion + 1) = none
                      rw [VersionExists_lookup t _ _ (by omega)]
                      exact hfresh1
                    · show ((t.VersionExists t.targetVersion).2).ndb.commitErr
                        = none
                      rw [hndb]
                      exact hcommit
                    · show ((t.VersionExists t.targetVersion).2).ndb.hasVersionF
                        = t.ndb.hasVersionF
                      rw [hndb]
          obtain ⟨hv1', hlk1', hce1', hhv1', hrc1'⟩ := hroot1
          have hce : (if (!t1'.skipFastStorageUpgrade) = true then
              t1'.saveFastNodeVersion t.targetVersion else t1').ndb.commitErr
              = none := by
            split
            · rw [saveFastNodeVersion_commitErr]
              exact hce1'
            · exact hce1'
          have ht2it : (if (!t1'.skipFastStorageUpgrade) = true then
              t1'.saveFastNodeVersion t.targetVersion else t1').itree
              = t1'.itree := by
            split
            · rw [saveFastNodeVersion_itree]
            · rfl
          split at hsave1
          · rename_i e heqC
            exact Option.noConfusion (hce.symm.trans heqC)
          · rename_i heqC
            split at hsave1
            · rename_i e heqH
              exfalso
              simp only [MutableTree.Hash, ITree.clone, ITreeHash] at heqH
              rw [ht2it] at heqH
              rcases hrc1' with ha | ⟨r, nk, hh, ha, hb, hcc, hd⟩
              · simp only [ha] at heqH
                exact Except.noConfusion heqH
              · simp only [ha,
                  hashRec_cached (t.targetVersion + 1) r hh hd] at heqH
                exact Except.noConfusion heqH
            · rename_i hash heqH
              have hhv : (if (!t1'.skipFastStorageUpgrade) = true then
                  t1'.saveFastNodeVersion t.targetVersion else t1').ndb.hasVersionF
                  = t.ndb.hasVersionF := by
                split
                · rw [saveFastNodeVersion_hasVersionF]
                  exact hhv1'
                · exact hhv1'
              have hvs : (if (!t1'.skipFastStorageUpgrade) = true then
                  t1'.saveFastNodeVersion t.targetVersion else t1').versions
                  = t1'.versions := by
                split
                · rw [saveFastNodeVersion_versions]
                · rfl
              simp only [Prod.mk.injEq, Except.ok.injEq] at hsave1
              obtain ⟨⟨hh1, hv1⟩, ht3⟩ := hsave1
              subst ht3
              subst hv1
              subst hh1
              simp only [MutableTree.Hash, ITree.clone, ITreeHash] at heqH
              rw [ht2it] at heqH
              refine ⟨rfl, rfl, ?_, ?_, ?_, ?_⟩
              · exact hce
              · exact hhv
              · have hbe : ((t.targetVersion + 1 : Int) == t.targetVersion)
                    = false := by
                  rw [beq_eq_false_iff_ne]
                  omega
                show (List.lookup (t.targetVersion + 1)
                    ((t.targetVersion, true) ::
                      List.filter (fun p => p.1 ≠ t.targetVersion)
                        (if (!t1'.skipFastStorageUpgrade) = true then
                          t1'.saveFastNodeVersion t.targetVersion
                        else t1').versions)) = none
                simp only [List.lookup, hbe]
                rw [lookup_filter_ne _ _ _ (by omega), hvs]
                exact hlk1'
              · rcases hrc1' with ha | ⟨r, nk, hh, ha, hb, hcc, hd⟩
                · simp only [ha] at heqH
                  injection heqH with heqH
                  refine Or.inl ⟨?_, heqH.symm⟩
                  show (if (!t1'.skipFastStorageUpgrade) = true then
                      t1'.saveFastNodeVersion t.targetVersion
                    else t1').itree.root = none
                  rw [ht2it]
                  exact ha
                · simp only [ha,
                    hashRec_cached (t.targetVersion + 1) r hh hd] at heqH
                  injection heqH with heqH
                  refine Or.inr ⟨r, nk, hh, ?_, hb, hcc, hd, heqH.symm⟩
                  show (if (!t1'.skipFastStorageUpgrade) = true then
                      t1'.saveFastNodeVersion t.targetVersion
                    else t1').itree.root = some r
                  rw [ht2it]
                  exact ha
    obtain ⟨hver, hv1, hc1, hhv1, hlk1, hrootc⟩ := key
    subst hv1
    have hcon2 : ¬(t1.itree.version + 1 = 1 ∧ t1.ndb.initialVersion > 0) := by
      intro hc
      rw [hver] at hc
      omega
    have htv1 : t1.targetVersion = t.targetVersion + 1 := by
      have ht1t : t1.targetVersion = t1.itree.version + 1 := by
        unfold MutableTree.targetVersion
        rw [if_neg hcon2]
      rw [ht1t, hver]
    have hfr : (t1.VersionExists t1.targetVersion).1 = false := by
      rw [htv1]
      exact VersionExists_false_of t1 _ hlk1 (by rw [hhv1]; exact hfresh2)
    have hroot2 : (t1.itree.root = none ∧ h1 = []) ∨
        (∃ r nk hh, t1.itree.root = some r ∧ r.nodeKey = some nk ∧
          nk.version < t1.itree.version + 1 ∧ r.hash = some hh ∧ h1 = hh) := by
      rcases hrootc with ⟨ha, hb⟩ | ⟨r, nk, hh, ha, hb, hcc, hd, he⟩
      · exact Or.inl ⟨ha, hb⟩
      · exact Or.inr ⟨r, nk, hh, ha, hb, by rw [hver]; omega, hd, he⟩
    have hmain := SaveVersion_noop t1 h1 hfr hc1 hroot2
    rw [htv1] at hmain
    exact hmain

/-- Witness for `SaveVersion_idempotent`: an idempotent save onto an
existing empty version, a conflicting save onto a version recorded with a
different hash, and a double save of an empty tree from scratch. -/
theorem SaveVersion_idempotent_witness :
    ((((MutableTree.mk (ITree.mk none 0 7 true) (ITree.mk none 0 7 true) []
      [(1, true)] false [] []
      (NodeDB.mk 7
        (fun v => if v = 1 then .ok (some (NodeKey.mk 0 0)) else .error "nf")
        (fun _ => .error "nf") (fun _ => false) (fun _ => .ok none)
        (.ok false) 1 0 none [] [] [] 0)
      true).VersionExists (MutableTree.mk (ITree.mk none 0 7 true) (ITree.mk none 0 7 true) []
      [(1, true)] false [] []
      (NodeDB.mk 7
        (fun v => if v = 1 then .ok (some (NodeKey.mk 0 0)) else .error "nf")
        (fun _ => .error "nf") (fun _ => false) (fun _ => .ok none)
        (.ok false) 1 0 none [] [] [] 0)
      true).targetVersion).1 = true ∧
      ((MutableTree.mk (ITree.mk none 0 7 true) (ITree.mk none 0 7 true) []
      [(1, true)] false [] []
      (NodeDB.mk 7
        (fun v => if v = 1 then .ok (some (NodeKey.mk 0 0)) else .error "nf")
        (fun _ => .error "nf") (fun _ => false) (fun _ => .ok none)
        (.ok false) 1 0 none [] [] [] 0)
      true).SaveVersion).2.ndb.savedNodes =
        (MutableTree.mk (ITree.mk none 0 7 true) (ITree.mk none 0 7 true) []
      [(1, true)] false [] []
      (NodeDB.mk 7
        (fun v => if v = 1 then .ok (some (NodeKey.mk 0 0)) else .error "nf")
        (fun _ => .error "nf") (fun _ => false) (fun _ => .ok none)
        (.ok false) 1 0 none [] [] [] 0)
      true).ndb.savedNodes) ∧
    ((MutableTree.mk (ITree.mk none 0 7 true) (ITree.mk none 0 7 true) []
      [(1, true)] false [] []
      (NodeDB.mk 7
        (fun v => if v = 1 then .ok (some (NodeKey.mk 1 0)) else .error "nf")
        (fun nk => if nk = NodeKey.mk 1 0 then
            .ok (SNode.mk [1] [2] 0 1 (some [9]) (some (NodeKey.mk 1 0))
              none none none none)
          else .error "nf")
        (fun _ => false) (fun _ => .ok none)
        (.ok false) 1 0 none [] [] [] 0)
      true).SaveVersion =
      (.error "version was already saved to different hash",
        ((MutableTree.mk (ITree.mk none 0 7 true) (ITree.mk none 0 7 true) []
      [(1, true)] false [] []
      (NodeDB.mk 7
        (fun v => if v = 1 then .ok (some (NodeKey.mk 1 0)) else .error "nf")
        (fun nk => if nk = NodeKey.mk 1 0 then
            .ok (SNode.mk [1] [2] 0 1 (some [9]) (some (NodeKey.mk 1 0))
              none none none none)
          else .error "nf")
        (fun _ => false) (fun _ => .ok none)
        (.ok false) 1 0 none [] [] [] 0)
      true).VersionExists (MutableTree.mk (ITree.mk none 0 7 true) (ITree.mk none 0 7 true) []
      [(1, true)] false [] []
      (NodeDB.mk 7
        (fun v => if v = 1 then .ok (some (NodeKey.mk 1 0)) else .error "nf")
        (fun nk => if nk = NodeKey.mk 1 0 then
            .ok (SNode.mk [1] [2] 0 1 (some [9]) (some (NodeKey.mk 1 0))
              none none none none)
          else .error "nf")
        (fun _ => false) (fun _ => .ok none)
        (.ok false) 1 0 none [] [] [] 0)
      true).targetVersion).2)) ∧
    ((0 : Int) ≤ (MutableTree.mk (ITree.mk none 0 7 true) (ITree.mk none 0 7 true) []
      [] false [] []
      (NodeDB.mk 7 (fun _ => .error "nf") (fun _ => .error "nf")
        (fun _ => false) (fun _ => .ok none) (.ok false) 0 0 none [] [] [] 0)
      true).itree.version ∧
      ((MutableTree.mk (ITree.mk none 0 7 true) (ITree.mk none 0 7 true) []
      [] false [] []
      (NodeDB.mk 7 (fun _ => .error "nf") (fun _ => .error "nf")
        (fun _ => false) (fun _ => .ok none) (.ok false) 0 0 none [] [] [] 0)
      true).SaveVersion).1 = .ok ([], 1) ∧
      ((((MutableTree.mk (ITree.mk none 0 7 true) (ITree.mk none 0 7 true) []
      [] false [] []
      (NodeDB.mk 7 (fun _ => .error "nf") (fun _ => .error "nf")
        (fun _ => false) (fun _ => .ok none) (.ok false) 0 0 none [] [] [] 0)
      true).SaveVersion).2).SaveVersion).1 = .ok ([], 1 + 1) ∧
      ((((MutableTree.mk (ITree.mk none 0 7 true) (ITree.mk none 0 7 true) []
      [] false [] []
      (NodeDB.mk 7 (fun _ => .error "nf") (fun _ => .error "nf")
        (fun _ => false) (fun _ => .ok none) (.ok false) 0 0 none [] [] [] 0)
      true).SaveVersion).2).SaveVersion).2.ndb.savedNodes =
        (((MutableTree.mk (ITree.mk none 0 7 true) (ITree.mk none 0 7 true) []
      [] false [] []
      (NodeDB.mk 7 (fun _ => .error "nf") (fun _ => .error "nf")
        (fun _ => false) (fun _ => .ok none) (.ok false) 0 0 none [] [] [] 0)
      true).SaveVersion).2).ndb.savedNodes)) := by
  refine ⟨⟨by decide, ?_⟩, ?_, by decide, by decide, ?_, ?_⟩
  · exact ((SaveVersion_idempotent
      (MutableTree.mk (ITree.mk none 0 7 true) (ITree.mk none 0 7 true) []
      [(1, true)] false [] []
      (NodeDB.mk 7
        (fun v => if v = 1 then .ok (some (NodeKey.mk 0 0)) else .error "nf")
        (fun _ => .error "nf") (fun _ => false) (fun _ => .ok none)
        (.ok false) 1 0 none [] [] [] 0)
      true)).1
      (NodeKey.mk 0 0) none [] (by decide) (by decide) (by decide)
      (by decide)).2
  · exact (SaveVersion_idempotent
      (MutableTree.mk (ITree.mk none 0 7 true) (ITree.mk none 0 7 true) []
      [(1, true)] false [] []
      (NodeDB.mk 7
        (fun v => if v = 1 then .ok (some (NodeKey.mk 1 0)) else .error "nf")
        (fun nk => if nk = NodeKey.mk 1 0 then
            .ok (SNode.mk [1] [2] 0 1 (some [9]) (some (NodeKey.mk 1 0))
              none none none none)
          else .error "nf")
        (fun _ => false) (fun _ => .ok none)
        (.ok false) 1 0 none [] [] [] 0)
      true)).2.1
      (NodeKey.mk 1 0)
      (some (SNode.mk [1] [2] 0 1 (some [9]) (some (NodeKey.mk 1 0))
        none none none none))
      [] (by decide) (by decide) (by decide) (by decide)
  · exact ((SaveVersion_idempotent
      (MutableTree.mk (ITree.mk none 0 7 true) (ITree.mk none 0 7 true) []
      [] false [] []
      (NodeDB.mk 7 (fun _ => .error "nf") (fun _ => .error "nf")
        (fun _ => false) (fun _ => .ok none) (.ok false) 0 0 none [] [] [] 0)
      true)).2.2
      [] 1 (((MutableTree.mk (ITree.mk none 0 7 true) (ITree.mk none 0 7 true) []
      [] false [] []
      (NodeDB.mk 7 (fun _ => .error "nf") (fun _ => .error "nf")
        (fun _ => false) (fun _ => .ok none) (.ok false) 0 0 none [] [] [] 0)
      true).SaveVersion).2)
      (by decide) rfl (by decide) rfl
      (fun v nk h => Except.noConfusion h)
      (fun nk n h => Except.noConfusion h)
      (fun r nk hr _ => Option.noConfusion hr)
      (by
        have hx : (((MutableTree.mk (ITree.mk none 0 7 true) (ITree.mk none 0 7 true) []
      [] false [] []
      (NodeDB.mk 7 (fun _ => .error "nf") (fun _ => .error "nf")
        (fun _ => false) (fun _ => .ok none) (.ok false) 0 0 none [] [] [] 0)
      true).SaveVersion).1 : Except String (Bytes × Int))
            = .ok ([], 1) := by decide
        rw [← hx])).1
  · exact ((SaveVersion_idempotent
      (MutableTree.mk (ITree.mk none 0 7 true) (ITree.mk none 0 7 true) []
      [] false [] []
      (NodeDB.mk 7 (fun _ => .error "nf") (fun _ => .error "nf")
        (fun _ => false) (fun _ => .ok none) (.ok false) 0 0 none [] [] [] 0)
      true)).2.2
      [] 1 (((MutableTree.mk (ITree.mk none 0 7 true) (ITree.mk none 0 7 true) []
      [] false [] []
      (NodeDB.mk 7 (fun _ => .error "nf") (fun _ => .error "nf")
        (fun _ => false) (fun _ => .ok none) (.ok false) 0 0 none [] [] [] 0)
      true).SaveVersion).2)
      (by decide) rfl (by decide) rfl
      (fun v nk h => Except.noConfusion h)
      (fun nk n h => Except.noConfusion h)
      (fun r nk hr _ => Option.noConfusion hr)
      (by
        have hx : (((MutableTree.mk (ITree.mk none 0 7 true) (ITree.mk none 0 7 true) []
      [] false [] []
      (NodeDB.mk 7 (fun _ => .error "nf") (fun _ => .error "nf")
        (fun _ => false) (fun _ => .ok none) (.ok false) 0 0 none [] [] [] 0)
      true).SaveVersion).1 : Except String (Bytes × Int))
            = .ok ([], 1) := by decide
        rw [← hx])).2

end Iavl
